import Mathlib

/-!
Verification of the MarkSnip HTML→Markdown/Org conversion pipeline.

Shallow embedding, in Lean 4, of the pure string/state algorithms of the
MarkSnip browser extension (files `src/offscreen/offscreen.js`, the background
service worker, and the default-options module), together with proofs and
refutations of the specification's claims about them.

Conventions used throughout:

* JavaScript strings are modelled as Lean `String` / `List Char`; the
  scans performed by the JS regular expressions that the source code uses
  are implemented directly as recursive functions on `List Char`, following
  the left-to-right, non-overlapping semantics of `String.prototype.replace`
  with a global regex.
* Patterns that the source code builds dynamically and feeds to
  `new RegExp` are only modelled on inputs for which the resulting pattern
  is a *literal* pattern (no unescaped regex metacharacters).  On other
  inputs the model returns `none`, standing for "behaviour not modelled"
  (in the browser such patterns either throw `SyntaxError` or match
  unintended positions).
* Platform black boxes (the `moment` date formatter, the turndown/orgdown
  rule engine's generic output, the DOM) enter the model as explicit
  function or string parameters.
-/

namespace MarkSnip

/-! Basic list-of-char utilities shared by the models. -/

/-- Characters that the JavaScript regex `.` (dot, without the `s` flag) does
not match: the line terminators U+000A, U+000D, U+2028, U+2029. -/

def jsLineTerm (c : Char) : Bool :=
  c = '\n' || c = '\r' || c = ' ' || c = ' '

/-- Is `pat` a prefix of `l`?  (Decidable prefix test on char lists.) -/
def isPrefixL : List Char → List Char → Bool
  | [], _ => true
  | _ :: _, [] => false
  | p :: ps, c :: cs => p = c && isPrefixL ps cs

/-- Fuel-driven core of literal global replacement (each step consumes at
least one input character, so fuel `l.length` always suffices). -/
def replaceAllF (pat rep : List Char) : Nat → List Char → List Char
  | _, [] => []
  | 0, l => l
  | f + 1, c :: cs =>
    if pat ≠ [] ∧ isPrefixL pat (c :: cs) then
      rep ++ replaceAllF pat rep f (cs.drop (pat.length - 1))
    else
      c :: replaceAllF pat rep f cs

/-- Literal global replacement: `replaceAllL pat rep l` replaces every
non-overlapping occurrence of `pat` in `l` by `rep`, scanning left to right
and never rescanning the replacement — the semantics of JavaScript
`String.replace(new RegExp(literal, 'g'), rep)`.  All call sites pass a
nonempty `pat`. -/
def replaceAllL (pat rep l : List Char) : List Char :=
  replaceAllF pat rep l.length l

/-- String wrapper for `replaceAllL`. -/
def replaceAllS (s pat rep : String) : String :=
  ⟨replaceAllL pat.toList rep.toList s.toList⟩

/-!
Model of `generateValidFileName` (service worker line 858, offscreen
line 1318):

```js
function generateValidFileName(title, disallowedChars = null) {
  if (!title) return title;
  else title = title + '';
  var illegalRe = /[\/\?<>\\:\*\|":]/g;
  var name = title.replace(illegalRe, "")
                  .replace(new RegExp(' ', 'g'), ' ');
  if (disallowedChars) {
    for (let c of disallowedChars) {
      if (`[\\^$.|?*+()`.includes(c)) c = `\\${c}`;
      name = name.replace(new RegExp(c, 'g'), '');
    }
  }
  return name;
}
```
-/

/-- The fixed illegal character class `[\/\?<>\\:\*\|":]` of
`generateValidFileName`. -/
def illegalFileChar (c : Char) : Bool :=
  c = '/' || c = '?' || c = '<' || c = '>' || c = '\\' ||
  c = ':' || c = '*' || c = '|' || c = '"'

/-- Stage 1 of `generateValidFileName`: strip the fixed illegal set
(global character-class replace by the empty string). -/
def gvfnStripIllegal (l : List Char) : List Char :=
  l.filter (fun c => !illegalFileChar c)

/-- Stage 2 of `generateValidFileName`: convert non-breaking spaces
(U+00A0) to regular spaces. -/
def gvfnNbspToSpace (l : List Char) : List Char :=
  l.map (fun c => if c = '\u00A0' then ' ' else c)

/-- Stage 3 of `generateValidFileName`: for each caller-supplied disallowed
character, remove every occurrence.  In the source, characters from the set
`` [\^$.|?*+() `` are backslash-escaped before being fed to `new RegExp`, and
every remaining single character is a literal single-character pattern, so
each loop iteration is exactly "delete all occurrences of `c`". -/
def gvfnStripDisallowed (d : List Char) (l : List Char) : List Char :=
  d.foldl (fun acc c => acc.filter (fun x => x ≠ c)) l

/-- The non-breaking space character U+00A0 (reducible so that statements
mentioning it match the literal used in the definitions). -/
abbrev nbspChar : Char := '\u00A0'

/-- Model of `generateValidFileName`.  `disallowedChars = none` models the
`null` default.  The only falsy `string` value is `""`; it is returned
unchanged (the `if (!title) return title` branch), and an empty
disallow-list is itself falsy, skipping the loop. -/
def generateValidFileName (title : String) (disallowedChars : Option String) : String :=
  if title = "" then title
  else
    match disallowedChars with
    | none => ⟨gvfnNbspToSpace (gvfnStripIllegal title.toList)⟩
    | some d =>
      if d = "" then ⟨gvfnNbspToSpace (gvfnStripIllegal title.toList)⟩
      else ⟨gvfnStripDisallowed d.toList (gvfnNbspToSpace (gvfnStripIllegal title.toList))⟩

/-!
Model of `validateUri` (offscreen line 1346):

```js
function validateUri(href, baseURI) {
  try { new URL(href); }
  catch {
    const baseUri = new URL(baseURI);
    if (href.startsWith('/')) { href = baseUri.origin + href; }
    else { href = baseUri.href + (baseUri.href.endsWith('/') ? '' : '/') + href; }
  }
  return href;
}
```

The platform's WHATWG `URL` parser is a black box; it is modelled here for
the shapes the extension feeds it: a string is an absolute URL iff it starts
with a valid scheme followed by `:`, and for the special schemes
(`http`, `https`, `ws`, `wss`, `ftp`) the `//host` part must follow with a
nonempty host.  `origin` and `href` are serialized as the browser does for
such URLs (default-port elision and path normalization such as `..`
collapsing are not modelled; the inputs in the claims do not exercise them).
-/

/-- ASCII alphabetic test used by the scheme grammar. -/
def isAsciiAlpha (c : Char) : Bool :=
  ('a' ≤ c && c ≤ 'z') || ('A' ≤ c && c ≤ 'Z')

/-- Characters allowed in a URL scheme after the first. -/
def isSchemeChar (c : Char) : Bool :=
  isAsciiAlpha c || ('0' ≤ c && c ≤ '9') || c = '+' || c = '-' || c = '.'

/-- The WHATWG special schemes that require an authority (host) —
`file` is left out, as the extension never resolves against `file` URLs. -/
def specialSchemes : List String := ["http", "https", "ws", "wss", "ftp"]

/-- A parsed absolute URL: scheme, host-and-port (empty for non-special
schemes, whose remainder is kept opaque), and the remainder
(path + query + fragment, verbatim). -/
structure JsUrl where
  scheme : String
  hostport : String
  rest : String
  special : Bool
deriving Repr, DecidableEq

/-- Split `l` at the first `:`; returns the scheme characters and the
remainder after the colon, or `none` if there is no colon. -/
def splitAtColon : List Char → Option (List Char × List Char)
  | [] => none
  | c :: cs => if c = ':' then some ([], cs)
    else match splitAtColon cs with
      | none => none
      | some (a, b) => some (c :: a, b)

/-- Take characters of the host until a `/`, `?` or `#` terminator. -/
def takeHost : List Char → List Char × List Char
  | [] => ([], [])
  | c :: cs =>
    if c = '/' || c = '?' || c = '#' then ([], c :: cs)
    else
      let (h, r) := takeHost cs
      (c :: h, r)

/-- Model of `new URL(s)` as a validity test plus component extraction. -/
def parseAbsoluteUrl (s : String) : Option JsUrl :=
  match splitAtColon s.toList with
  | none => none
  | some (sch, rest) =>
    match sch with
    | [] => none
    | c0 :: crest =>
      if isAsciiAlpha c0 && crest.all isSchemeChar then
        let scheme : String := ⟨(c0 :: crest).map Char.toLower⟩
        if specialSchemes.contains scheme then
          match rest with
          | '/' :: '/' :: r =>
            let (h, pr) := takeHost r
            if h = [] then none
            else some ⟨scheme, ⟨h.map Char.toLower⟩, ⟨pr⟩, true⟩
          | _ => none
        else
          some ⟨scheme, "", ⟨rest⟩, false⟩
      else none

/-- The `origin` property: for special schemes `scheme://hostport`,
otherwise the literal string `"null"` as in the browser. -/
def JsUrl.origin (u : JsUrl) : String :=
  if u.special then u.scheme ++ "://" ++ u.hostport else "null"

/-- The `href` property (serialization): special URLs get `/` as path when
the remainder is empty; non-special URLs keep their opaque remainder. -/
def JsUrl.href (u : JsUrl) : String :=
  if u.special then
    u.scheme ++ "://" ++ u.hostport ++ (if u.rest = "" then "/" else u.rest)
  else
    u.scheme ++ ":" ++ u.rest

/-- `s.startsWith('/')` on the character list. -/
def firstCharIsSlash (s : String) : Bool :=
  match s.toList with
  | '/' :: _ => true
  | _ => false

/-- `s.endsWith('/')` on the character list. -/
def lastCharIsSlash (s : String) : Bool :=
  s.toList.getLast? = some '/'

/-- Model of `validateUri`.  `none` models the uncaught exception thrown
when both `href` and `baseURI` fail to parse. -/
def validateUri (href baseURI : String) : Option String :=
  if (parseAbsoluteUrl href).isSome then some href
  else
    match parseAbsoluteUrl baseURI with
    | none => none
    | some b =>
      if firstCharIsSlash href then some (b.origin ++ href)
      else some (b.href ++ (if lastCharIsSlash b.href then "" else "/") ++ href)

/-!
Models of the two code-fence emitters in `offscreen.js`.

`convertToFencedCodeBlock` (line 805) computes an adaptive fence:

```js
var fenceChar = options.fence.charAt(0);
var fenceSize = 3;
var fenceInCodeRegex = new RegExp('^' + fenceChar + '{3,}', 'gm');
var match;
while ((match = fenceInCodeRegex.exec(code))) {
  if (match[0].length >= fenceSize) { fenceSize = match[0].length + 1; }
}
var fence = repeat(fenceChar, fenceSize);
return ('\n\n' + fence + language + '\n' + code.replace(/\n$/, '') + '\n' + fence + '\n\n');
```

The `fencedCodeBlock` turndown rule (line 842), used for `<pre><code>`
blocks, instead uses a constant:

```js
const fenceChar = options.fence.charAt(0);
const fenceSize = 3;
const fence = repeat(fenceChar, fenceSize);
return ('\n\n' + fence + processedCode.language + '\n' + processedCode.code + '\n' + fence + '\n\n');
```

The DOM extraction feeding them (`node.innerText` / `processCodeBlock`) is
taken as input: the models receive the already-extracted `code` and
`language` strings.
-/

/-- `repeat(character, count)` from the source (`Array(count+1).join(char)`). -/
def repeatChar (c : Char) (n : Nat) : String := ⟨List.replicate n c⟩

/-- Split a character list at every JS line terminator (`^` with the `m`
flag matches at the string start and after each of U+000A, U+000D, U+2028,
U+2029). -/
def splitAtLineTerms : List Char → List (List Char)
  | [] => [[]]
  | c :: cs =>
    if jsLineTerm c then [] :: splitAtLineTerms cs
    else
      match splitAtLineTerms cs with
      | [] => [[c]]
      | l :: ls => (c :: l) :: ls

/-- Length of the leading run of character `c`. -/
def leadRun (c : Char) : List Char → Nat
  | [] => 0
  | x :: xs => if x = c then leadRun c xs + 1 else 0

/-- The lengths of the runs of `fc` found at line starts — the candidate
matches of `new RegExp('^' + fenceChar + '{3,}', 'gm')` (the regex only
yields those of length at least 3). -/
def lineStartRuns (fc : Char) (code : String) : List Nat :=
  (splitAtLineTerms code.toList).map (leadRun fc)

/-- The `while (fenceInCodeRegex.exec(code))` loop: starting from 3, each
line-start run of length at least 3 bumps the fence size to run + 1 when it
is at least the current size. -/
def fenceSizeScan (fc : Char) (code : String) : Nat :=
  ((lineStartRuns fc code).filter (fun n => 3 ≤ n)).foldl
    (fun fs len => if fs ≤ len then len + 1 else fs) 3

/-- `code.replace(/\n$/, '')`: drop one trailing U+000A if present. -/
def stripTrailingNl (code : String) : String :=
  match code.toList.getLast? with
  | some '\n' => ⟨code.toList.dropLast⟩
  | _ => code

/-- Model of `convertToFencedCodeBlock` on the extracted code body and
language. -/
def convertToFencedCodeBlock (code language : String) (fc : Char) : String :=
  let fence := repeatChar fc (fenceSizeScan fc code)
  "\n\n" ++ fence ++ language ++ "\n" ++ stripTrailingNl code ++ "\n" ++ fence ++ "\n\n"

/-- Model of the `fencedCodeBlock` rule's replacement for `<pre><code>`
blocks: the fence is always exactly 3 characters. -/
def fencedCodeBlockReplacement (language code : String) (fc : Char) : String :=
  let fence := repeatChar fc 3
  "\n\n" ++ fence ++ language ++ "\n" ++ code ++ "\n" ++ fence ++ "\n\n"

/-- Longest run of character `c` occurring anywhere in the list (the
quantity the claim says the fence must exceed). -/
def maxRunAnywhere (c : Char) (l : List Char) : Nat :=
  go l 0 0
where
  go : List Char → Nat → Nat → Nat
  | [], cur, best => max cur best
  | x :: xs, cur, best =>
    if x = c then go xs (cur + 1) best
    else go xs 0 (max cur best)

/-- Maximum of a list of naturals (0 for the empty list). -/
def maxListNat : List Nat → Nat
  | [] => 0
  | x :: xs => max x (maxListNat xs)

/-!
Model of the image-manifest construction in the `images` turndown rule
(offscreen line 668) and the `customImages` orgdown rule (line 912) — the
collision-resolution logic is identical in both:

```js
let imageFilename = getImageFilename(src, options, false);
if (!imageList[src] || imageList[src] != imageFilename) {
  let i = 1;
  while (Object.values(imageList).includes(imageFilename)) {
    const parts = imageFilename.split('.');
    if (i == 1) parts.splice(parts.length - 1, 0, i++);
    else parts.splice(parts.length - 2, 1, i++);
    imageFilename = parts.join('.');
  }
  imageList[src] = imageFilename;
}
```

`getImageFilename` is URL- and options-dependent; the model takes the
computed filename as the per-image input.  The `while` loop is modelled
with explicit fuel `|values| + 1`, which is proved sufficient.
-/

/-- Prepend a character to the first group of a split result. -/
def consHead (c : Char) : List (List Char) → List (List Char)
  | [] => [[c]]
  | l :: ls => (c :: l) :: ls

/-- Split a character list at every occurrence of `sep`
(JavaScript `String.split(sep)`; never returns an empty list). -/
def splitOnChar (sep : Char) : List Char → List (List Char)
  | [] => [[]]
  | c :: cs =>
    if c = sep then [] :: splitOnChar sep cs
    else consHead c (splitOnChar sep cs)

/-- `Array.join('.')` on part lists. -/
def joinDot : List (List Char) → List Char
  | [] => []
  | [p] => p
  | p :: ps => p ++ '.' :: joinDot ps

/-- Decimal rendering of a natural number (the JS number-to-string coercion
performed by `parts.splice(..., i++)` followed by `join`), with structural
fuel so that it evaluates by kernel reduction. -/
def natDecimalAux : Nat → Nat → List Char
  | 0, _ => []
  | _ + 1, 0 => []
  | f + 1, n + 1 => natDecimalAux f ((n + 1) / 10) ++ [Nat.digitChar ((n + 1) % 10)]

/-- Decimal rendering of a natural number. -/
def natDecimal (n : Nat) : List Char :=
  if n = 0 then ['0'] else natDecimalAux (n + 1) n

/-- One execution of the loop body on the current filename with counter `i`:
`splice(parts.length - 1, 0, i)` for the first iteration (insert the
disambiguator before the extension) and `splice(parts.length - 2, 1, i)`
afterwards (replace the previous disambiguator).  `take`/`drop` encode
`splice` exactly, including the clamping of the negative start index that
JavaScript applies when `parts.length = 1`. -/
def uniquifyStep (name : List Char) (i : Nat) : List Char :=
  let parts := splitOnChar '.' name
  if i = 1 then
    joinDot (parts.take (parts.length - 1) ++ [natDecimal i] ++ parts.drop (parts.length - 1))
  else
    joinDot (parts.take (parts.length - 2) ++ [natDecimal i] ++ parts.drop (parts.length - 2 + 1))

/-- The `while (Object.values(imageList).includes(imageFilename))` loop,
with fuel. -/
def uniquifyLoop (vals : List (List Char)) : List Char → Nat → Nat → List Char
  | name, _, 0 => name
  | name, i, fuel + 1 =>
    if name ∈ vals then uniquifyLoop vals (uniquifyStep name i) (i + 1) fuel
    else name

/-- Collision resolution started with `i = 1` and enough fuel. -/
def uniquify (vals : List (List Char)) (name : List Char) : List Char :=
  uniquifyLoop vals name 1 (vals.length + 1)

/-- The manifest: an insertion-ordered string-keyed record
(`imageList[src] = filename` updates in place or appends). -/
abbrev Manifest : Type := List (List Char × List Char)

/-- `imageList[src]` lookup. -/
def mLookup : Manifest → List Char → Option (List Char)
  | [], _ => none
  | (k, v) :: rest, key => if k = key then some v else mLookup rest key

/-- `Object.values(imageList)`. -/
def mVals (m : Manifest) : List (List Char) := m.map (·.2)

/-- `imageList[src] = v`: update in place, else append. -/
def mSet : Manifest → List Char → List Char → Manifest
  | [], key, v => [(key, v)]
  | (k, v') :: rest, key, v =>
    if k = key then (k, v) :: rest else (k, v') :: mSet rest key v

/-- Processing one image whose computed filename is `computed`
(the body of the `if (!imageList[src] || imageList[src] != imageFilename)`
guard; an empty stored value is falsy and re-enters the branch). -/
def addImage (m : Manifest) (src computed : List Char) : Manifest :=
  match mLookup m src with
  | some v =>
    if v = [] ∨ v ≠ computed then mSet m src (uniquify (mVals m) computed) else m
  | none => mSet m src (uniquify (mVals m) computed)

/-- The manifest produced by processing a document's images in order,
from the empty manifest the rule starts with (`let imageList = {}`). -/
def buildManifest (events : List (List Char × List Char)) : Manifest :=
  events.foldl (fun m e => addImage m e.1 e.2) []

/-- Does `l` end with the suffix `suf`? -/
def endsWithL (l suf : List Char) : Bool := isPrefixL suf.reverse l.reverse

/-! Decimal rendering: correctness and injectivity. -/

/-- Base-10 value of a digit string (left inverse of `natDecimal`). -/
def decVal (l : List Char) : Nat :=
  l.foldl (fun a c => 10 * a + (c.toNat - 48)) 0

/-! The canonical shape of the filename during collision resolution:
after the first loop iteration it is `A ++ [decimal counter] ++ B`
(dot-joined), where `A` and `B` are the fixed surrounding parts. -/

/-- The candidate filename with disambiguator `k`. -/
def cand (A B : List (List Char)) (k : Nat) : List Char :=
  joinDot (A ++ [natDecimal k] ++ B)

/-!
Model of `textReplace` (service worker line 806, offscreen line 1266):

```js
function textReplace(string, article, disallowedChars = null) {
  for (const key in article) {
    if (article.hasOwnProperty(key) && key != "content") {
      let s = (article[key] || '') + '';
      if (s && disallowedChars) s = generateValidFileName(s, disallowedChars);
      string = string.replace(new RegExp('{' + key + '}', 'g'), s)
        .replace(new RegExp('{' + key + ':kebab}', 'g'), s.replace(/ /g, '-').toLowerCase())
        .replace(new RegExp('{' + key + ':snake}', 'g'), s.replace(/ /g, '_').toLowerCase())
        .replace(new RegExp('{' + key + ':camel}', 'g'),
                 s.replace(/ ./g, (str) => str.trim().toUpperCase()).replace(/^./, (str) => str.toLowerCase()))
        .replace(new RegExp('{' + key + ':pascal}', 'g'),
                 s.replace(/ ./g, (str) => str.trim().toUpperCase()).replace(/^./, (str) => str.toUpperCase()));
    }
  }
  const now = new Date();
  const dateRegex = /{date:(.+?)}/g;
  const matches = string.match(dateRegex);
  if (matches && matches.forEach) {
    matches.forEach(match => {
      const format = match.substring(6, match.length - 1);
      const dateString = moment(now).format(format);
      string = string.replaceAll(match, dateString);
    });
  }
  const keywordRegex = /{keywords:?(.*)?}/g;
  const keywordMatches = string.match(keywordRegex);
  if (keywordMatches && keywordMatches.forEach) {
    keywordMatches.forEach(match => {
      let seperator = match.substring(10, match.length - 1);
      try { seperator = JSON.parse(JSON.stringify(seperator).replace(/\\\\/g, '\\')); }
      catch { }
      const keywordsString = (article.keywords || []).join(seperator);
      string = string.replace(new RegExp(match.replace(/\\/g, '\\\\'), 'g'), keywordsString);
    });
  }
  const defaultRegex = /{(.*?)}/g;
  string = string.replace(defaultRegex, '');
  return string;
}
```

The `moment` formatter is a black box and enters as the parameter
`fmtDate`.  The article record is modelled as a list of string-valued
metadata fields plus the keyword list; the JS `for..in` also enumerates the
`keywords` array property (stringified with the default `,` separator), so
the model appends that property, in insertion order, after the other
fields.  Dynamically built `new RegExp` patterns are treated as literal
patterns when no regex metacharacter occurs in the interpolated text and as
unmodelled (`none`) otherwise.
-/

/-- The regex metacharacters that make a dynamically built pattern
non-literal (a backslash in a keywords match is doubled by the source
before compilation and therefore stays literal). -/
def jsRegexMeta (c : Char) : Bool :=
  c = '(' || c = ')' || c = '[' || c = ']' || c = '^' || c = '$' ||
  c = '.' || c = '|' || c = '?' || c = '*' || c = '+' ||
  c = '\x7b' || c = '\x7d' || c = '\\'

/-- `Array.prototype.join(sep)`. -/
def joinWith (sep : List Char) : List (List Char) → List Char
  | [] => []
  | [p] => p
  | p :: ps => p ++ sep ++ joinWith sep ps

/-- The document record as the template engine sees it: string-valued
metadata fields (in insertion order) and the keyword list. -/
structure Article where
  fields : List (String × String)
  keywords : List String

/-- The properties enumerated by `for (const key in article)`: the string
fields followed by the `keywords` array, which stringifies by joining with
`,`. -/
def articleProps (a : Article) : List (List Char × List Char) :=
  (a.fields.map (fun kv => (kv.1.toList, kv.2.toList)))
    ++ [("keywords".toList, joinWith [','] (a.keywords.map String.toList))]

/-- `s.replace(/ /g,'-').toLowerCase()` (ASCII case-mapping). -/
def kebabCase (l : List Char) : List Char :=
  (l.map (fun c => if c = ' ' then '-' else c)).map Char.toLower

/-- `s.replace(/ /g,'_').toLowerCase()`. -/
def snakeCase (l : List Char) : List Char :=
  (l.map (fun c => if c = ' ' then '_' else c)).map Char.toLower

/-- The whitespace removed by `String.prototype.trim` (the subset relevant
to a single character matched by `.`). -/
def jsTrimWs (c : Char) : Bool :=
  c = ' ' || c = '\t' || c = '\x0b' || c = '\x0c' || c = '\u00A0' || c = '\uFEFF'

/-- `s.replace(/ ./g, (str) => str.trim().toUpperCase())`: every space
followed by a non-line-terminator character is replaced by that character
upper-cased (or by nothing when the following character is itself
whitespace, since `trim` then empties the match). -/
def camelCore : List Char → List Char
  | [] => []
  | [c] => [c]
  | ' ' :: c :: rest =>
    if jsLineTerm c then ' ' :: camelCore (c :: rest)
    else if jsTrimWs c then camelCore rest
    else c.toUpper :: camelCore rest
  | c :: rest => c :: camelCore rest

/-- `.replace(/^./, (str) => str.toLowerCase())`. -/
def lowerFirst : List Char → List Char
  | [] => []
  | c :: rest => if jsLineTerm c then c :: rest else c.toLower :: rest

/-- `.replace(/^./, (str) => str.toUpperCase())`. -/
def upperFirst : List Char → List Char
  | [] => []
  | c :: rest => if jsLineTerm c then c :: rest else c.toUpper :: rest

/-- The five literal replacements performed for one article field. -/
def applyFieldKey (key value : List Char) (s : List Char) : List Char :=
  let r1 := replaceAllL ('\x7b' :: key ++ ['\x7d']) value s
  let r2 := replaceAllL ('\x7b' :: key ++ ":kebab\x7d".toList) (kebabCase value) r1
  let r3 := replaceAllL ('\x7b' :: key ++ ":snake\x7d".toList) (snakeCase value) r2
  let r4 := replaceAllL ('\x7b' :: key ++ ":camel\x7d".toList)
    (lowerFirst (camelCore value)) r3
  replaceAllL ('\x7b' :: key ++ ":pascal\x7d".toList) (upperFirst (camelCore value)) r4

/-- The field-substitution loop.  A key containing a regex metacharacter
would make `new RegExp('{' + key + '}')` non-literal (or invalid); such
records are unmodelled (`none`).  The `content` key is skipped, and the
value is filename-sanitized when nonempty and a disallow-list is given. -/
def fieldSteps (props : List (List Char × List Char)) (d : Option String) :
    List Char → Option (List Char) :=
  fun s =>
    props.foldl
      (fun acc kv =>
        acc.bind (fun s =>
          if kv.1 = "content".toList then some s
          else if kv.1.all (fun c => !jsRegexMeta c) then
            let v : List Char :=
              match d with
              | some ds =>
                if ds ≠ "" ∧ kv.2 ≠ [] then
                  (generateValidFileName ⟨kv.2⟩ (some ds)).toList
                else kv.2
              | none => kv.2
            some (applyFieldKey kv.1 v s)
          else none))
      (some s)

/-- Lazy scan of `.*?}`: the characters up to the *first* `}` reachable
without crossing a line terminator, and the remainder after it. -/
def findClose : List Char → Option (List Char × List Char)
  | [] => none
  | c :: cs =>
    if c = '\x7d' then some ([], cs)
    else if jsLineTerm c then none
    else
      match findClose cs with
      | none => none
      | some (p, r) => some (c :: p, r)

/-- Greedy scan of `.*}`: the characters up to the *last* `}` reachable
without crossing a line terminator, and the remainder after it. -/
def lastClose : List Char → Option (List Char × List Char)
  | [] => none
  | c :: cs =>
    if jsLineTerm c then none
    else
      match lastClose cs with
      | some (p, r) => some (c :: p, r)
      | none => if c = '\x7d' then some ([], cs) else none

/-- All matches of `/{date:(.+?)}/g`, in scan order (fuel-driven; the fuel
`l.length` always suffices because every step consumes at least one
character). -/
def dateMatchesF : Nat → List Char → List (List Char)
  | 0, _ => []
  | _ + 1, [] => []
  | fuel + 1, l@(_ :: cs) =>
    if isPrefixL "\x7bdate:".toList l then
      match l.drop 6 with
      | c0 :: rest =>
        if jsLineTerm c0 then dateMatchesF fuel cs
        else
          match findClose rest with
          | some (pre, r) =>
            ("\x7bdate:".toList ++ (c0 :: pre) ++ ['\x7d']) :: dateMatchesF fuel r
          | none => dateMatchesF fuel cs
      | [] => dateMatchesF fuel cs
    else dateMatchesF fuel cs

/-- The date-substitution pass: each match `{date:<fmt>}` is replaced
(everywhere, literally — `replaceAll` with a string argument) by the
formatted date. -/
def dateStep (fmtDate : List Char → List Char) (s : List Char) : List Char :=
  (dateMatchesF s.length s).foldl
    (fun acc m => replaceAllL m (fmtDate ((m.drop 6).dropLast)) acc) s

/-- All matches of `/{keywords:?(.*)?}/g` in scan order: `{keywords`
followed greedily by anything up to the last `}` on the same line. -/
def keywordMatchesF : Nat → List Char → List (List Char)
  | 0, _ => []
  | _ + 1, [] => []
  | fuel + 1, l@(_ :: cs) =>
    if isPrefixL "\x7bkeywords".toList l then
      match lastClose (l.drop 9) with
      | some (w, r) =>
        ("\x7bkeywords".toList ++ w ++ ['\x7d']) :: keywordMatchesF fuel r
      | none => keywordMatchesF fuel cs
    else keywordMatchesF fuel cs

/-- `String.prototype.substring(a, b)`: swaps its arguments when
`a > b` and clamps to the string length. -/
def jsSubstring (l : List Char) (a b : Nat) : List Char :=
  (l.take (max a b)).drop (min a b)

/-- One character of `JSON.stringify` string escaping. -/
def jsonEscapeChar (c : Char) : List Char :=
  if c = '"' then ['\\', '"']
  else if c = '\\' then ['\\', '\\']
  else if c = '\n' then ['\\', 'n']
  else if c = '\r' then ['\\', 'r']
  else if c = '\t' then ['\\', 't']
  else if c = '\x08' then ['\\', 'b']
  else if c = '\x0c' then ['\\', 'f']
  else if c.toNat < 32 then
    ['\\', 'u', '0', '0',
      (if c.toNat / 16 < 10 then Char.ofNat (48 + c.toNat / 16)
       else Char.ofNat (87 + c.toNat / 16)),
      (if c.toNat % 16 < 10 then Char.ofNat (48 + c.toNat % 16)
       else Char.ofNat (87 + c.toNat % 16))]
  else [c]

/-- Value of one hexadecimal digit. -/
def hexVal (c : Char) : Option Nat :=
  if '0' ≤ c ∧ c ≤ '9' then some (c.toNat - 48)
  else if 'a' ≤ c ∧ c ≤ 'f' then some (c.toNat - 87)
  else if 'A' ≤ c ∧ c ≤ 'F' then some (c.toNat - 55)
  else none

/-- One simple JSON string escape. -/
def jsonSimpleEscape (e : Char) : Option Char :=
  if e = 'n' then some '\n'
  else if e = 'r' then some '\r'
  else if e = 't' then some '\t'
  else if e = 'b' then some '\x08'
  else if e = 'f' then some '\x0c'
  else if e = '"' then some '"'
  else if e = '\\' then some '\\'
  else if e = '/' then some '/'
  else none

/-- `JSON.parse` of a string body: decodes escapes up to a final closing
quote, which must end the input; `none` models `SyntaxError`. -/
def jsonParseBody : List Char → Option (List Char)
  | [] => none
  | '"' :: rest => if rest = [] then some [] else none
  | '\\' :: 'u' :: h1 :: h2 :: h3 :: h4 :: rest =>
    match hexVal h1, hexVal h2, hexVal h3, hexVal h4 with
    | some a, some b, some c, some d =>
      (jsonParseBody rest).map
        (Char.ofNat (((a * 16 + b) * 16 + c) * 16 + d) :: ·)
    | _, _, _, _ => none
  | '\\' :: e :: rest =>
    match jsonSimpleEscape e with
    | some c => (jsonParseBody rest).map (c :: ·)
    | none => none
  | c :: rest =>
    if c.toNat < 32 then none else (jsonParseBody rest).map (c :: ·)

/-- `JSON.parse(JSON.stringify(sep).replace(/\\\\/g, '\\'))` with the
surrounding `try { } catch { }`: on a parse error the raw separator is
kept. -/
def jsonUnescape (sep : List Char) : List Char :=
  let st := '"' :: (sep.flatMap jsonEscapeChar) ++ ['"']
  let coll := replaceAllL ['\\', '\\'] ['\\'] st
  match coll with
  | '"' :: rest =>
    match jsonParseBody rest with
    | some x => x
    | none => sep
  | _ => sep

/-- The keyword-substitution pass.  For each match, the separator is the
(substring-swapped) interior, JSON-unescaped; the match text is then
replaced globally.  The compiled pattern is the match with backslashes
doubled, which is a literal pattern exactly when the interior contains no
other regex metacharacter — other separators are unmodelled (`none`). -/
def keywordStep (keywords : List (List Char)) (s : List Char) : Option (List Char) :=
  (keywordMatchesF s.length s).foldl
    (fun acc m =>
      acc.bind (fun s =>
        if m.all (fun c => !jsRegexMeta c || c = '\\' || c = '\x7b' || c = '\x7d')
            ∧ (jsSubstring m 10 (m.length - 1)).all
                (fun c => !(c = '\x7b' || c = '\x7d')) then
          let sep := jsonUnescape (jsSubstring m 10 (m.length - 1))
          some (replaceAllL m (joinWith sep keywords) s)
        else none))
    (some s)

/-- One-pass implementation of the final cleanup
`string.replace(/{(.*?)}/g, '')`: starting at each `{`, the lazy `.*?`
absorbs everything (including further `{`) up to the first `}` on the same
line and the whole token is dropped; a `{` with no `}` before the next line
terminator stays, and nothing between it and that terminator can start a
new match. -/
def cleanGo : List Char → List Char → List Char
  | [], buf => buf
  | c :: cs, [] =>
    if c = '\x7b' then cleanGo cs ['\x7b'] else c :: cleanGo cs []
  | c :: cs, buf@(_ :: _) =>
    if c = '\x7d' then cleanGo cs []
    else if jsLineTerm c then buf ++ c :: cleanGo cs []
    else cleanGo cs (buf ++ [c])

/-- The final cleanup pass. -/
def jsCleanup (l : List Char) : List Char := cleanGo l []

/-- Model of `textReplace`.  `fmtDate` is the `moment(now).format` black
box; `none` stands for the unmodelled dynamic-regex cases (which throw or
mismatch in the browser). -/
def textReplace (template : String) (a : Article) (d : Option String)
    (fmtDate : List Char → List Char) : Option String :=
  (fieldSteps (articleProps a) d template.toList).bind fun s1 =>
    (keywordStep (a.keywords.map String.toList) (dateStep fmtDate s1)).map
      fun s3 => (⟨jsCleanup s3⟩ : String)

/-- Does the list contain a complete `{...}` token (a `{` with a `}`
anywhere after it)? -/
def hasBraceToken : List Char → Bool
  | [] => false
  | c :: cs => (c = '\x7b' && cs.contains '\x7d') || hasBraceToken cs

/-- Does the list contain a single-line `{...}` token (a `{` with a `}`
after it on the same line)? -/
def hasSameLineToken : List Char → Bool
  | [] => false
  | c :: cs => (c = '\x7b' && (findClose cs).isSome) || hasSameLineToken cs

/-- A concrete document record used in counterexamples and witnesses. -/
def demoArticle : Article := ⟨[("title", "T")], ["k1", "k2"]⟩

/-!
Model of the final output assembly and control-character stripping.

Markdown path (offscreen lines 324–355 and 880–888): `convertArticleToMarkdown`
substitutes the front/back-matter templates when `includeTemplate` is set
(else both are empty), `turndown` concatenates
`options.frontmatter + <engine output> + options.backmatter` and strips
the non-printing character denylist from the concatenation.

Org path (lines 360–376 and 1008–1013): `orgdown` strips the denylist
from the engine output, after which `convertArticleToOrg` *prepends* the
substituted preamble: `result.org = orgPreamble + result.org`.

The rule-engine output (`turndownService.turndown(content)` /
`orgdownService.orgdown(content)`) is a black box and enters as the
`engineOutput` parameter.
-/

/-- The fixed denylist
`/[\u0000-\u0009\u000b\u000c\u000e-\u001f\u007f-\u009f­؜​-‏  ﻿￹-￼]/`. -/
def isNonPrintingChar (c : Char) : Bool :=
  c.toNat ≤ 0x9 || c.toNat = 0xb || c.toNat = 0xc ||
  (0xe ≤ c.toNat && c.toNat ≤ 0x1f) ||
  (0x7f ≤ c.toNat && c.toNat ≤ 0x9f) ||
  c.toNat = 0xad || c.toNat = 0x61c ||
  (0x200b ≤ c.toNat && c.toNat ≤ 0x200f) ||
  c.toNat = 0x2028 || c.toNat = 0x2029 ||
  c.toNat = 0xfeff || (0xfff9 ≤ c.toNat && c.toNat ≤ 0xfffc)

/-- `markdown.replace(/[...denylist...]/g, '')`. -/
def stripNonPrinting (s : String) : String :=
  ⟨s.toList.filter (fun c => !isNonPrintingChar c)⟩

/-- `turndown`'s final assembly (offscreen lines 880–885): front matter and
back matter are part of the stripped concatenation. -/
def turndownAssemble (frontmatter engineOutput backmatter : String) : String :=
  stripNonPrinting (frontmatter ++ engineOutput ++ backmatter)

/-- `orgdown`'s final assembly (lines 1008–1011): only the engine output is
stripped. -/
def orgdownAssemble (engineOutput : String) : String :=
  stripNonPrinting engineOutput

/-- `convertArticleToMarkdown` (Markdown branch): template substitution of
front/back matter, then `turndown`. -/
def convertArticleToMarkdownModel (a : Article) (includeTemplate : Bool)
    (frontmatterTemplate backmatterTemplate : String)
    (fmtDate : List Char → List Char) (engineOutput : String) : Option String :=
  if includeTemplate then
    (textReplace frontmatterTemplate a none fmtDate).bind fun fm =>
      (textReplace backmatterTemplate a none fmtDate).map fun bm =>
        turndownAssemble (fm ++ "\n") engineOutput ("\n" ++ bm)
  else
    some (turndownAssemble "" engineOutput "")

/-- `convertArticleToOrg`: the substituted preamble is prepended *after*
`orgdown` has stripped the engine output. -/
def convertArticleToOrgModel (a : Article) (includeTemplate : Bool)
    (orgPreambleTemplate : String)
    (fmtDate : List Char → List Char) (engineOutput : String) : Option String :=
  if includeTemplate ∧ orgPreambleTemplate ≠ "" then
    (textReplace orgPreambleTemplate a none fmtDate).map fun pre =>
      (pre ++ "\n\n") ++ orgdownAssemble engineOutput
  else
    some (orgdownAssemble engineOutput)

/-- Is the string free of denylist characters? -/
def noNonPrinting (s : String) : Bool :=
  s.toList.all (fun c => !isNonPrintingChar c)

/-- An article whose title contains the zero-width space U+200B. -/
def zwspArticle : Article := ⟨[("title", "a​b")], []⟩

/-!
Model of the download-tracking maps of the background service worker
(`activeDownloads`, `markSnipDownloads`, `markSnipUrls`, part_000 lines
26–30), of the per-image tracking in `handleImageDownloads` (lines
283–306), and of the `downloads.onChanged` listener `handleDownloadChange`
(lines 550–596):

```js
function handleDownloadChange(delta) {
  if (activeDownloads.has(delta.id)) {
    if (delta.state && delta.state.current === "complete") {
      const url = activeDownloads.get(delta.id);
      if (url.startsWith('blob:chrome-extension://')) { ...sendMessage('cleanup-blob-url')... }
      activeDownloads.delete(delta.id);
      markSnipDownloads.delete(delta.id);
    } else if (delta.state && delta.state.current === "interrupted") {
      ...same deletions...
    }
  }
  // Also clean up any remaining URL tracking
  if (markSnipDownloads.has(delta.id)) {
    const downloadInfo = markSnipDownloads.get(delta.id);
    if (downloadInfo.url && markSnipUrls.has(downloadInfo.url)) {
      markSnipUrls.delete(downloadInfo.url);
    }
  }
}
```

The `sendMessage` side effect does not touch the maps and is not part of
the claim; the model tracks the three maps.
-/

/-- A `markSnipDownloads` record. -/
structure MSDownload where
  filename : String
  isImage : Bool
  url : Option String
deriving Repr, DecidableEq

/-- A `markSnipUrls` record. -/
structure MSUrl where
  filename : String
  isImage : Bool
deriving Repr, DecidableEq

/-- Assoc-list `Map.set`. -/
def alSet {κ α : Type} [DecidableEq κ] : List (κ × α) → κ → α → List (κ × α)
  | [], k, v => [(k, v)]
  | (k', v') :: rest, k, v =>
    if k' = k then (k, v) :: rest else (k', v') :: alSet rest k v

/-- Assoc-list `Map.get`. -/
def alGet {κ α : Type} [DecidableEq κ] : List (κ × α) → κ → Option α
  | [], _ => none
  | (k', v') :: rest, k => if k' = k then some v' else alGet rest k

/-- Assoc-list `Map.delete`. -/
def alDelete {κ α : Type} [DecidableEq κ] (m : List (κ × α)) (k : κ) : List (κ × α) :=
  m.filter (fun e => e.1 ≠ k)

/-- The three tracking maps. -/
structure DownloadState where
  activeDownloads : List (Nat × String)
  markSnipDownloads : List (Nat × MSDownload)
  markSnipUrls : List (String × MSUrl)
deriving Repr, DecidableEq

/-- A `downloads.onChanged` delta: the download id and, when the event
carries a state change, the new state string. -/
structure Delta where
  id : Nat
  state : Option String
deriving Repr, DecidableEq

/-- Model of `handleDownloadChange`. -/
def handleDownloadChange (st : DownloadState) (delta : Delta) : DownloadState :=
  let st1 :=
    match alGet st.activeDownloads delta.id with
    | some _ =>
      if delta.state = some "complete" ∨ delta.state = some "interrupted" then
        { st with
            activeDownloads := alDelete st.activeDownloads delta.id,
            markSnipDownloads := alDelete st.markSnipDownloads delta.id }
      else st
    | none => st
  match alGet st1.markSnipDownloads delta.id with
  | some info =>
    match info.url with
    | some u =>
      if (alGet st1.markSnipUrls u).isSome then
        { st1 with markSnipUrls := alDelete st1.markSnipUrls u }
      else st1
    | none => st1
  | none => st1

/-- Does the URL use the `blob:` scheme? -/
def isBlobUrl (src : String) : Bool := isPrefixL "blob:".toList src.toList

/-- The tracking performed by `handleImageDownloads` for one image whose
download was accepted with identifier `imgId`: a blob URL is tracked in
`markSnipUrls` (keyed by URL) and `activeDownloads`; any other URL in
`markSnipDownloads` (keyed by id) and `activeDownloads`. -/
def trackImageDownload (st : DownloadState) (src fullImagePath : String)
    (imgId : Nat) : DownloadState :=
  let st1 :=
    if isBlobUrl src then
      { st with markSnipUrls := alSet st.markSnipUrls src ⟨fullImagePath, true⟩ }
    else st
  let st2 := { st1 with activeDownloads := alSet st1.activeDownloads imgId src }
  if !isBlobUrl src then
    { st2 with
        markSnipDownloads :=
          alSet st2.markSnipDownloads imgId ⟨fullImagePath, true, some src⟩ }
  else st2

/-- The state after tracking one blob-URL image download (id 7). -/
def c7Tracked : DownloadState :=
  trackImageDownload ⟨[], [], []⟩ "blob:chrome-extension://abc/img"
    "folder/img.png" 7

/-- The state after the handler observes the terminal `complete` state. -/
def c7AfterComplete : DownloadState :=
  handleDownloadChange c7Tracked ⟨7, some "complete"⟩

/-!
Model of the table rule of the Markdown converter (offscreen lines
522–661).  The DOM row/cell enumeration and the per-cell rendering through
the restricted cell converter are black boxes; the model's input is the
list of rows, each a list of cells carrying the rendered cell content
(`processedContent`) and the parsed `rowspan`/`colspan` values (after the
`parseInt(attr) || 1` default).

Matrix construction (lines 530–588): each cell's rendered content is
written into the matrix once per spanned slot; the target column is always
the current length of the target row; the visible width (newlines to
spaces, link syntax reduced to its label, emphasis markers stripped)
updates `columnWidths[targetCol]` when larger (or when the stored width is
falsy).  The emission (lines 590–654) formats each cell, joins with `|`,
and emits header, separator and data lines.
-/

/-- A table cell as the rule sees it: rendered content and spans. -/
structure CellData where
  content : String
  rowspan : Nat
  colspan : Nat
deriving Repr, DecidableEq

/-- Scan `[^x]*` up to the closing `x` (newlines allowed by the class). -/
def takeNo (stop : Char) : List Char → Option (List Char × List Char)
  | [] => none
  | c :: cs =>
    if c = stop then some ([], cs)
    else (takeNo stop cs).map (fun pr => (c :: pr.1, pr.2))

/-- Match of `!?\[([^\]]*)\]\([^)]*\)` at the current position:
the label group and the remainder after the match. -/
def linkMatchAt : List Char → Option (List Char × List Char)
  | '!' :: '[' :: rest =>
    (takeNo ']' rest).bind fun gr =>
      match gr.2 with
      | '(' :: r2 => (takeNo ')' r2).map (fun ur => (gr.1, ur.2))
      | _ => none
  | '[' :: rest =>
    (takeNo ']' rest).bind fun gr =>
      match gr.2 with
      | '(' :: r2 => (takeNo ')' r2).map (fun ur => (gr.1, ur.2))
      | _ => none
  | _ => none

/-- `.replace(/!?\[([^\]]*)\]\([^)]*\)/g, '$1')` (fuel-driven scan). -/
def replaceLinksF : Nat → List Char → List Char
  | 0, l => l
  | _ + 1, [] => []
  | f + 1, l@(c :: cs) =>
    match linkMatchAt l with
    | some (g, r) => g ++ replaceLinksF f r
    | none => c :: replaceLinksF f cs

/-- The emphasis-marker class `[*_~\x60]`. -/
def isFmtChar (c : Char) : Bool :=
  c = '*' || c = '_' || c = '~' || c = '`'

/-- Length of the leading run of emphasis markers. -/
def fmtRun : List Char → Nat
  | [] => 0
  | c :: cs => if isFmtChar c then fmtRun cs + 1 else 0

/-- Lazy scan for the next emphasis marker on the same line: the skipped
middle and the remainder starting at that marker. -/
def findFmtStart : List Char → Option (List Char × List Char)
  | [] => none
  | c :: cs =>
    if isFmtChar c then some ([], c :: cs)
    else if jsLineTerm c then none
    else (findFmtStart cs).map (fun mr => (c :: mr.1, mr.2))

/-- Match of `[*_~\x60]+(.*?)[*_~\x60]+` at the current position: the lazy
middle group and the remainder.  The greedy opening run backtracks one
marker when no second run can be found (possible only when the run has at
least 2 markers), making the run itself the whole match with an empty
group. -/
def fmtMatchAt (l : List Char) : Option (List Char × List Char) :=
  let r := fmtRun l
  if r = 0 then none
  else
    match findFmtStart (l.drop r) with
    | some (mid, rest1) => some (mid, rest1.drop (fmtRun rest1))
    | none => if 2 ≤ r then some ([], l.drop r) else none

/-- `.replace(/[*_~\x60]+(.*?)[*_~\x60]+/g, '$1')` (fuel-driven scan). -/
def replaceFmtF : Nat → List Char → List Char
  | 0, l => l
  | _ + 1, [] => []
  | f + 1, l@(c :: cs) =>
    match fmtMatchAt l with
    | some (g, r) => g ++ replaceFmtF f r
    | none => c :: replaceFmtF f cs

/-- Visible length used for `columnWidths` (lines 575–580): newlines to
spaces, then links to labels, then emphasis stripped. -/
def visibleLenMatrix (content : List Char) : Nat :=
  let s1 := content.map (fun c => if c = '\n' then ' ' else c)
  let s2 := replaceLinksF s1.length s1
  (replaceFmtF s2.length s2).length

/-- Visible length used by `formatCell` (lines 613–616): links to labels,
then emphasis stripped (no newline replacement). -/
def visibleLenCell (content : List Char) : Nat :=
  let s2 := replaceLinksF content.length content
  (replaceFmtF s2.length s2).length

/-- `formatCell(content, columnIndex)` (lines 594–629). -/
def formatCell (prettyPrint centerText : Bool) (widths : List Nat)
    (content : List Char) (columnIndex : Nat) : List Char :=
  if !prettyPrint then ' ' :: content ++ [' ']
  else if widths.length ≤ columnIndex then ' ' :: content ++ [' ']
  else if content.contains '\n' then ' ' :: content ++ [' ']
  else
    let visibleLength := visibleLenCell content
    let width := (widths.get? columnIndex).getD 0
    let totalWidth := width + 2
    if !centerText then
      ' ' :: content ++ List.replicate (totalWidth - visibleLength - 1) ' '
    else
      let pad := totalWidth - visibleLength
      List.replicate (pad / 2) ' ' ++ content ++ List.replicate (pad - pad / 2) ' '

/-- The matrix/width state built by the row loop. -/
structure TState where
  matrix : List (List (List Char))
  widths : List Nat
deriving Repr, DecidableEq

/-- `if (!tableMatrix[targetRow]) tableMatrix[targetRow] = []`: rows are
only ever extended contiguously (the target row index grows by one per
rowspan step), so extension pads with empty rows up to the target. -/
def ensureRow (m : List (List (List Char))) (r : Nat) : List (List (List Char)) :=
  if r < m.length then m else m ++ List.replicate (r + 1 - m.length) []

/-- `if (!columnWidths[targetCol] || visibleLength > columnWidths[targetCol])
columnWidths[targetCol] = visibleLength`.  Because the target column is the
current row length and widths were already written for every smaller
column, the index never exceeds the current length. -/
def updateWidth (widths : List Nat) (idx vl : Nat) : List Nat :=
  match widths.get? idx with
  | some w => if w = 0 ∨ w < vl then widths.set idx vl else widths
  | none => widths ++ [vl]

/-- One slot write: extend the matrix to the target row if needed, append
the rendered content at the current end of that row, and update the width
of the column written. -/
def writeSlot (acc : TState) (tr : Nat) (pc : List Char) (vl : Nat) : TState :=
  let m := ensureRow acc.matrix tr
  let row := (m.get? tr).getD []
  { matrix := m.set tr (row ++ [pc]),
    widths := updateWidth acc.widths row.length vl }

/-- Placing one cell: the rendered content is written into every slot of
the `rowspan × colspan` footprint, at the current end of each target row
(lines 558–586). -/
def placeCell (st : TState) (rowIndex : Nat) (cell : CellData) : TState :=
  let pc := cell.content.toList
  let vl := visibleLenMatrix pc
  (List.range cell.rowspan).foldl
    (fun acc i =>
      (List.range cell.colspan).foldl
        (fun acc _j => writeSlot acc (rowIndex + i) pc vl)
        acc)
    st

/-- The row loop with its row index. -/
def buildRowsGo : TState → Nat → List (List CellData) → TState
  | st, _, [] => st
  | st, i, row :: rest =>
    buildRowsGo (row.foldl (fun s c => placeCell s i c) st) (i + 1) rest

/-- The full matrix construction: `tableMatrix` starts as `rows.length`
empty rows, `columnWidths` empty. -/
def buildTable (rows : List (List CellData)) : TState :=
  buildRowsGo ⟨List.replicate rows.length [], []⟩ 0 rows

/-- `cells.map((cell, i) => ...)`: map with the element index. -/
def mapIdxL {α β : Type} (f : Nat → α → β) : Nat → List α → List β
  | _, [] => []
  | n, x :: xs => f n x :: mapIdxL f (n + 1) xs

/-- `'|' + cells.join('|') + '|'` (the line body, newline excluded). -/
def lineCore (cells : List (List Char)) : List Char :=
  '|' :: joinWith ['|'] cells ++ ['|']

/-- `'|' + cells.join('|') + '|\n'`. -/
def pipeLine (cells : List (List Char)) : List Char :=
  lineCore cells ++ ['\n']

/-- The formatted cells of one matrix row. -/
def fmtRow (prettyPrint centerText : Bool) (widths : List Nat)
    (row : List (List Char)) : List (List Char) :=
  mapIdxL (fun i c => formatCell prettyPrint centerText widths c i) 0 row

/-- The markdown emission (lines 590–654). -/
def tableEmit (prettyPrint centerText : Bool) (st : TState) : List Char :=
  if st.matrix = [] then
    "\n\n".toList ++ "| No data available |\n|-|\n".toList
  else
    let header := pipeLine (fmtRow prettyPrint centerText st.widths (st.matrix.headD []))
    let sep := pipeLine (st.widths.map (fun w => List.replicate (max 3 w + 2) '-'))
    let dataLines := (st.matrix.drop 1).map
      (fun row => pipeLine (fmtRow prettyPrint centerText st.widths row))
    "\n\n".toList ++ header ++ sep ++ dataLines.flatten

/-- The table rule replacement: matrix construction followed by emission. -/
def tableRule (prettyPrint centerText : Bool) (rows : List (List CellData)) : String :=
  ⟨tableEmit prettyPrint centerText (buildTable rows)⟩

/-- Entry lookup in the matrix. -/
def getEntry (st : TState) (r c : Nat) : Option (List Char) :=
  (st.matrix.get? r).bind (fun row => row.get? c)

/-! Lemmas about `generateValidFileName`. -/

lemma mem_gvfnStripIllegal {c : Char} {l : List Char}
    (h : c ∈ gvfnStripIllegal l) : illegalFileChar c = false := by
  have := List.of_mem_filter h
  simpa using this

lemma mem_gvfnNbspToSpace_ne_nbsp {c : Char} {l : List Char}
    (h : c ∈ gvfnNbspToSpace l) : c ≠ nbspChar := by
  rcases List.mem_map.1 h with ⟨x, _, hfx⟩
  subst hfx
  by_cases hxe : x = nbspChar
  · simp only [hxe, if_pos rfl]
    decide
  · simp only [if_neg hxe]
    exact hxe

lemma mem_gvfnNbspToSpace_not_illegal {c : Char} {l : List Char}
    (hl : ∀ x ∈ l, illegalFileChar x = false)
    (h : c ∈ gvfnNbspToSpace l) : illegalFileChar c = false := by
  rcases List.mem_map.1 h with ⟨x, hx, hfx⟩
  subst hfx
  by_cases hxe : x = nbspChar
  · simp only [hxe, if_pos rfl]
    decide
  · simp only [if_neg hxe]
    exact hl x hx

lemma mem_gvfnStripDisallowed {c : Char} {d l : List Char}
    (h : c ∈ gvfnStripDisallowed d l) : c ∈ l := by
  induction d generalizing l with
  | nil => simpa [gvfnStripDisallowed] using h
  | cons x xs ih =>
    simp only [gvfnStripDisallowed, List.foldl_cons] at h
    exact List.mem_of_mem_filter (ih h)

lemma gvfnStripDisallowed_not_mem {c : Char} {d l : List Char}
    (hc : c ∈ d) : c ∉ gvfnStripDisallowed d l := by
  induction d generalizing l with
  | nil => cases hc
  | cons x xs ih =>
    intro habs
    simp only [gvfnStripDisallowed, List.foldl_cons] at habs
    rcases List.mem_cons.1 hc with hce | hcm
    · subst hce
      have := List.of_mem_filter (mem_gvfnStripDisallowed habs)
      simp at this
    · exact ih hcm habs

lemma gvfnStripIllegal_eq_self {l : List Char}
    (h : ∀ x ∈ l, illegalFileChar x = false) : gvfnStripIllegal l = l := by
  apply List.filter_eq_self.2
  intro a ha
  simp [h a ha]

lemma gvfnNbspToSpace_eq_self {l : List Char}
    (h : ∀ x ∈ l, x ≠ nbspChar) : gvfnNbspToSpace l = l := by
  unfold gvfnNbspToSpace
  have hcongr : ∀ x ∈ l, (if x = nbspChar then ' ' else x) = id x := by
    intro x hx
    simp [h x hx]
  rw [List.map_congr_left hcongr, List.map_id]

lemma gvfnStripDisallowed_eq_self {d l : List Char}
    (h : ∀ c ∈ d, c ∉ l) : gvfnStripDisallowed d l = l := by
  induction d generalizing l with
  | nil => rfl
  | cons x xs ih =>
    simp only [gvfnStripDisallowed, List.foldl_cons]
    have hfx : l.filter (fun y => y ≠ x) = l := by
      apply List.filter_eq_self.2
      intro a ha
      have hax : a ≠ x := by
        intro he
        exact h x (List.mem_cons_self x xs) (he ▸ ha)
      simp [hax]
    rw [hfx]
    exact ih (fun c hc => h c (List.mem_cons_of_mem x hc))

lemma string_mk_toList (s : String) : (⟨s.toList⟩ : String) = s := rfl

lemma toList_string_mk (l : List Char) : (⟨l⟩ : String).toList = l := rfl

/-- Every character of `generateValidFileName`'s output is non-illegal and
is not U+00A0. -/
lemma mem_generateValidFileName {c : Char} {s : String} {d : Option String}
    (h : c ∈ (generateValidFileName s d).toList) :
    illegalFileChar c = false ∧ c ≠ nbspChar := by
  unfold generateValidFileName at h
  by_cases hs : s = ""
  · rw [if_pos hs] at h
    subst hs
    cases h
  · rw [if_neg hs] at h
    have base : ∀ x ∈ gvfnNbspToSpace (gvfnStripIllegal s.toList),
        illegalFileChar x = false ∧ x ≠ nbspChar := by
      intro x hx
      exact ⟨mem_gvfnNbspToSpace_not_illegal (fun y hy => mem_gvfnStripIllegal hy) hx,
        mem_gvfnNbspToSpace_ne_nbsp hx⟩
    cases d with
    | none =>
      simp only [toList_string_mk] at h
      exact base c h
    | some ds =>
      by_cases hds : ds = ""
      · simp only [if_pos hds, toList_string_mk] at h
        exact base c h
      · simp only [if_neg hds, toList_string_mk] at h
        exact base c (mem_gvfnStripDisallowed h)

/-! Theorems for the claims about `generateValidFileName`. -/

/-- C2.  For every input string and every caller-supplied disallowed-character
list, the string returned by `generateValidFileName` contains none of the
characters `/ ? < > \ : * | "` and contains no non-breaking space (U+00A0,
converted to a regular space); and for empty (falsy) input the input is
returned unchanged. -/
theorem C2_generateValidFileName_sanitizes :
    ∀ (s : String) (d : Option String),
      ((generateValidFileName s d).toList.all
        (fun c => !illegalFileChar c && c ≠ nbspChar)) = true
      ∧ generateValidFileName "" d = "" := by
  intro s d
  constructor
  · apply List.all_eq_true.2
    intro c hc
    have hm := mem_generateValidFileName hc
    simp [hm.1, hm.2]
  · unfold generateValidFileName
    rw [if_pos rfl]

/-- C10.  `generateValidFileName` is idempotent: applying it twice with the
same disallow-list gives the same result as applying it once. -/
theorem C10_generateValidFileName_idempotent :
    ∀ (s : String) (d : Option String),
      generateValidFileName (generateValidFileName s d) d
        = generateValidFileName s d := by
  intro s d
  by_cases hs : s = ""
  · subst hs
    have h1 : generateValidFileName "" d = "" := by
      unfold generateValidFileName
      rw [if_pos rfl]
    rw [h1, h1]
  · set r := generateValidFileName s d with hr
    by_cases hrs : r = ""
    · rw [hrs]
      unfold generateValidFileName
      rw [if_pos rfl]
    · have hchars : ∀ c ∈ r.toList, illegalFileChar c = false ∧ c ≠ nbspChar := by
        intro c hc
        exact mem_generateValidFileName (hr ▸ hc)
      have hno_d : ∀ ds : String, d = some ds → ds ≠ "" →
          ∀ c ∈ ds.toList, c ∉ r.toList := by
        intro ds hd hds c hc
        rw [hr]
        unfold generateValidFileName
        rw [if_neg hs, hd]
        simp only [if_neg hds, toList_string_mk]
        exact gvfnStripDisallowed_not_mem hc
      have hstage1 : gvfnStripIllegal r.toList = r.toList :=
        gvfnStripIllegal_eq_self (fun x hx => (hchars x hx).1)
      have hstage2 : gvfnNbspToSpace r.toList = r.toList :=
        gvfnNbspToSpace_eq_self (fun x hx => (hchars x hx).2)
      unfold generateValidFileName
      rw [if_neg hrs]
      cases d with
      | none =>
        simp only [hstage1, hstage2]
        exact string_mk_toList r
      | some ds =>
        by_cases hds : ds = ""
        · simp only [hstage1, hstage2, if_pos hds]
          exact string_mk_toList r
        · have hstage3 : gvfnStripDisallowed ds.toList r.toList = r.toList :=
            gvfnStripDisallowed_eq_self (fun c hc => hno_d ds rfl hds c hc)
          simp only [hstage1, hstage2, if_neg hds, hstage3]
          exact string_mk_toList r

/-- C9.  `validateUri` returns an absolute href unchanged; a root-relative
href is resolved against the base URI's origin, and any other relative href
is appended to the base URI (slash-separated):
`validateUri "/x" "https://a.com/b/c" = "https://a.com/x"` and
`validateUri "x" "https://a.com/b/c" = "https://a.com/b/c/x"`. -/
theorem C9_validateUri_resolution :
    (∀ href baseURI : String, (parseAbsoluteUrl href).isSome = true →
      validateUri href baseURI = some href)
    ∧ validateUri "/x" "https://a.com/b/c" = some "https://a.com/x"
    ∧ validateUri "x" "https://a.com/b/c" = some "https://a.com/b/c/x" := by
  refine ⟨?_, ?_, ?_⟩
  · intro href baseURI h
    unfold validateUri
    rw [if_pos h]
  · decide
  · decide

/-- Witness for C9: the hypothesis of the first conjunct discharged at a
concrete absolute URL. -/
theorem C9_validateUri_resolution_witness :
    validateUri "https://e.org/p?q=1" "https://a.com/b/c"
      = some "https://e.org/p?q=1" :=
  C9_validateUri_resolution.1 "https://e.org/p?q=1" "https://a.com/b/c" (by decide)

/-! Lemmas for the fence-size computation. -/

lemma fence_foldl_eq_max (l : List Nat) :
    ∀ fs, l.foldl (fun fs len => if fs ≤ len then len + 1 else fs) fs
      = max fs (l.foldr (fun x m => max (x + 1) m) 0) := by
  induction l with
  | nil => intro fs; simp
  | cons x xs ih =>
    intro fs
    have hstep : (if fs ≤ x then x + 1 else fs) = max fs (x + 1) := by
      by_cases h : fs ≤ x
      · rw [if_pos h]; omega
      · rw [if_neg h]; omega
    simp only [List.foldl_cons, List.foldr_cons, hstep, ih]
    omega

lemma foldr_maxp1_eq (l : List Nat) (hl : l ≠ []) :
    l.foldr (fun x m => max (x + 1) m) 0 = maxListNat l + 1 := by
  induction l with
  | nil => cases hl rfl
  | cons x xs ih =>
    by_cases hxs : xs = []
    · subst hxs
      simp [maxListNat]
    · simp only [List.foldr_cons, ih hxs, maxListNat]
      omega

lemma maxListNat_mem (l : List Nat) (h : maxListNat l ≠ 0) : maxListNat l ∈ l := by
  induction l with
  | nil => simp [maxListNat] at h
  | cons x xs ih =>
    simp only [maxListNat] at h ⊢
    by_cases hle : maxListNat xs ≤ x
    · rw [Nat.max_eq_left hle] at h ⊢
      exact List.mem_cons_self x xs
    · push_neg at hle
      rw [Nat.max_eq_right (Nat.le_of_lt hle)] at h ⊢
      exact List.mem_cons_of_mem x (ih (by omega))

lemma le_maxListNat_of_mem {a : Nat} {l : List Nat} (ha : a ∈ l) :
    a ≤ maxListNat l := by
  induction l with
  | nil => cases ha
  | cons x xs ih =>
    simp only [maxListNat]
    rcases List.mem_cons.1 ha with he | hm
    · subst he; omega
    · have := ih hm; omega

lemma maxListNat_filter_ge (l : List Nat) (h : 3 ≤ maxListNat l) :
    maxListNat (l.filter (fun n => 3 ≤ n)) = maxListNat l := by
  induction l with
  | nil => simp [maxListNat] at h
  | cons x xs ih =>
    simp only [maxListNat] at h ⊢
    by_cases hx : 3 ≤ x
    · rw [List.filter_cons_of_pos (by simpa using hx)]
      simp only [maxListNat]
      by_cases hxs : 3 ≤ maxListNat xs
      · rw [ih hxs]
      · have hall : ∀ y ∈ xs.filter (fun n => 3 ≤ n), False := by
          intro y hy
          have h3 : (3 : Nat) ≤ y := by simpa using (List.of_mem_filter hy)
          have hmem : y ∈ xs := List.mem_of_mem_filter hy
          have := le_maxListNat_of_mem hmem
          omega
        have hnil : xs.filter (fun n => 3 ≤ n) = [] := by
          cases hfe : xs.filter (fun n => 3 ≤ n) with
          | nil => rfl
          | cons a as => exact (hall a (hfe ▸ List.mem_cons_self a as)).elim
        rw [hnil]
        simp only [maxListNat]
        omega
    · rw [List.filter_cons_of_neg (by simpa using hx)]
      have hxs : 3 ≤ maxListNat xs := by omega
      rw [ih hxs]
      omega

lemma filter_ge3_eq_nil_iff (l : List Nat) :
    l.filter (fun n => 3 ≤ n) = [] ↔ maxListNat l < 3 := by
  constructor
  · intro h
    by_contra hlt
    push_neg at hlt
    have hne : maxListNat l ≠ 0 := by omega
    have hmem := maxListNat_mem l hne
    have : maxListNat l ∈ l.filter (fun n => 3 ≤ n) :=
      List.mem_filter.2 ⟨hmem, by simpa using hlt⟩
    rw [h] at this
    cases this
  · intro h
    apply List.filter_eq_nil_iff.2
    intro a ha
    have hle := le_maxListNat_of_mem ha
    simp only [decide_eq_true_eq]
    omega

/-- Closed form of the fence-size scan: one longer than the largest
line-start run of the fence character when some such run has length at
least 3, and 3 otherwise. -/
lemma fenceSizeScan_closed_form (fc : Char) (code : String) :
    fenceSizeScan fc code =
      if 3 ≤ maxListNat (lineStartRuns fc code)
      then maxListNat (lineStartRuns fc code) + 1
      else 3 := by
  unfold fenceSizeScan
  set runs := lineStartRuns fc code with hruns
  set F := runs.filter (fun n => 3 ≤ n) with hF
  rw [fence_foldl_eq_max]
  by_cases hnil : F = []
  · rw [hnil]
    have hlt : maxListNat runs < 3 := (filter_ge3_eq_nil_iff runs).1 hnil
    rw [if_neg (by omega)]
    simp
  · have hge : 3 ≤ maxListNat runs := by
      by_contra habs
      push_neg at habs
      exact hnil ((filter_ge3_eq_nil_iff runs).2 habs)
    rw [if_pos hge]
    rw [foldr_maxp1_eq F hnil, hF, maxListNat_filter_ge runs hge]
    omega

/-! Theorems for claim C6. -/

/-- C6 counterexample.  A `<pre><code>` block whose body `"````"` contains a
run of 4 fence characters is emitted by the `fencedCodeBlock` rule with a
3-character fence — not the 5-character fence the claim requires — so the
fence collides with the embedded fence-like content. -/
theorem C6_counterexample_fixed_fence :
    fencedCodeBlockReplacement "" "````" '`'
        = "\n\n```\n````\n```\n\n"
      ∧ maxRunAnywhere '`' "````".toList = 4
      ∧ ¬ (3 = 4 + 1) := by
  refine ⟨by decide, by decide, by omega⟩

/-- C6 amended.  The adaptive fence belongs to `convertToFencedCodeBlock`,
used for `<pre>` blocks *without* a `<code>` child: its fence is one
character longer than the longest run of the fence character of length ≥ 3
occurring *at the start of a line* of the code body (and 3 when there is no
such run); `<pre><code>` blocks always get a fence of exactly 3. -/
theorem C6_amended_adaptive_fence :
    ∀ (fc : Char) (code language : String),
      convertToFencedCodeBlock code language fc =
        (let n := if 3 ≤ maxListNat (lineStartRuns fc code)
                  then maxListNat (lineStartRuns fc code) + 1
                  else 3;
         "\n\n" ++ repeatChar fc n ++ language ++ "\n"
           ++ stripTrailingNl code ++ "\n" ++ repeatChar fc n ++ "\n\n")
      ∧ fencedCodeBlockReplacement language code fc =
          "\n\n" ++ repeatChar fc 3 ++ language ++ "\n"
            ++ code ++ "\n" ++ repeatChar fc 3 ++ "\n\n" := by
  intro fc code language
  constructor
  · show convertToFencedCodeBlock code language fc = _
    unfold convertToFencedCodeBlock
    rw [fenceSizeScan_closed_form]
  · rfl

lemma digitChar_toNat {d : Nat} (h : d < 10) : (Nat.digitChar d).toNat = 48 + d := by
  interval_cases d <;> rfl

lemma decVal_append_digit (xs : List Char) (c : Char) :
    decVal (xs ++ [c]) = 10 * decVal xs + (c.toNat - 48) := by
  unfold decVal
  rw [List.foldl_append]
  rfl

lemma natDecimalAux_val : ∀ f n, n ≤ f → decVal (natDecimalAux f n) = n := by
  intro f
  induction f with
  | zero =>
    intro n hn
    interval_cases n
    rfl
  | succ f ih =>
    intro n hn
    match n with
    | 0 => rfl
    | m + 1 =>
      have hdiv : (m + 1) / 10 ≤ f := by
        have h1 : (m + 1) / 10 < m + 1 := Nat.div_lt_self (Nat.succ_pos m) (by omega)
        omega
      show decVal (natDecimalAux f ((m + 1) / 10) ++ [Nat.digitChar ((m + 1) % 10)]) = m + 1
      rw [decVal_append_digit, ih _ hdiv,
        digitChar_toNat (Nat.mod_lt _ (by omega))]
      omega

lemma natDecimal_val (n : Nat) : decVal (natDecimal n) = n := by
  unfold natDecimal
  by_cases h : n = 0
  · subst h; rfl
  · rw [if_neg h]
    exact natDecimalAux_val (n + 1) n (Nat.le_succ n)

lemma natDecimal_inj {n m : Nat} (h : natDecimal n = natDecimal m) : n = m := by
  have := congrArg decVal h
  rwa [natDecimal_val, natDecimal_val] at this

lemma digitChar_ne_dot {d : Nat} (h : d < 10) : Nat.digitChar d ≠ '.' := by
  interval_cases d <;> decide

lemma natDecimalAux_no_dot : ∀ f n, '.' ∉ natDecimalAux f n := by
  intro f
  induction f with
  | zero => intro n; simp [natDecimalAux]
  | succ f ih =>
    intro n
    match n with
    | 0 => simp [natDecimalAux]
    | m + 1 =>
      show '.' ∉ natDecimalAux f ((m + 1) / 10) ++ [Nat.digitChar ((m + 1) % 10)]
      intro habs
      rcases List.mem_append.1 habs with hl | hr
      · exact ih _ hl
      · rcases List.mem_singleton.1 hr with he
        exact digitChar_ne_dot (Nat.mod_lt _ (by omega)) he.symm

lemma natDecimal_no_dot (n : Nat) : '.' ∉ natDecimal n := by
  unfold natDecimal
  by_cases h : n = 0
  · subst h; decide
  · rw [if_neg h]
    exact natDecimalAux_no_dot (n + 1) n

/-! Split/join lemmas. -/

lemma splitOnChar_cons_sep (sep : Char) (cs : List Char) :
    splitOnChar sep (sep :: cs) = [] :: splitOnChar sep cs := by
  simp [splitOnChar]

lemma splitOnChar_cons_ne {sep c : Char} (cs : List Char) (h : c ≠ sep) :
    splitOnChar sep (c :: cs) = consHead c (splitOnChar sep cs) := by
  simp [splitOnChar, h]

lemma splitOnChar_ne_nil (sep : Char) (l : List Char) : splitOnChar sep l ≠ [] := by
  cases l with
  | nil => simp [splitOnChar]
  | cons c cs =>
    by_cases h : c = sep
    · subst h
      rw [splitOnChar_cons_sep]
      simp
    · rw [splitOnChar_cons_ne cs h]
      cases splitOnChar sep cs <;> simp [consHead]

lemma splitOnChar_no_sep (sep : Char) (l : List Char) :
    ∀ p ∈ splitOnChar sep l, sep ∉ p := by
  induction l with
  | nil =>
    intro p hp
    simp [splitOnChar] at hp
    simp [hp]
  | cons c cs ih =>
    intro p hp
    by_cases h : c = sep
    · subst h
      rw [splitOnChar_cons_sep] at hp
      rcases List.mem_cons.1 hp with he | hm
      · simp [he]
      · exact ih p hm
    · rw [splitOnChar_cons_ne cs h] at hp
      cases hcs : splitOnChar sep cs with
      | nil => exact absurd hcs (splitOnChar_ne_nil sep cs)
      | cons l' ls =>
        rw [hcs] at hp
        simp only [consHead] at hp
        rcases List.mem_cons.1 hp with he | hm
        · subst he
          intro habs
          rcases List.mem_cons.1 habs with h1 | h2
          · exact h h1.symm
          · exact ih l' (hcs ▸ List.mem_cons_self l' ls) h2
        · exact ih p (hcs ▸ List.mem_cons_of_mem l' hm)

lemma splitOnChar_sepfree {sep : Char} {l : List Char} (h : sep ∉ l) :
    splitOnChar sep l = [l] := by
  induction l with
  | nil => rfl
  | cons c cs ih =>
    have hc : c ≠ sep := fun he => h (he ▸ List.mem_cons_self c cs)
    have hcs : sep ∉ cs := fun hm => h (List.mem_cons_of_mem c hm)
    rw [splitOnChar_cons_ne cs hc, ih hcs]
    rfl

lemma splitOnChar_append_sep {sep : Char} {p : List Char} (r : List Char) (h : sep ∉ p) :
    splitOnChar sep (p ++ sep :: r) = p :: splitOnChar sep r := by
  induction p with
  | nil =>
    show splitOnChar sep (sep :: r) = [] :: splitOnChar sep r
    exact splitOnChar_cons_sep sep r
  | cons c cs ih =>
    have hc : c ≠ sep := fun he => h (he ▸ List.mem_cons_self c cs)
    have hcs : sep ∉ cs := fun hm => h (List.mem_cons_of_mem c hm)
    show splitOnChar sep (c :: (cs ++ sep :: r)) = (c :: cs) :: splitOnChar sep r
    rw [splitOnChar_cons_ne _ hc, ih hcs]
    rfl

lemma joinDot_cons {p : List Char} {ps : List (List Char)} (hps : ps ≠ []) :
    joinDot (p :: ps) = p ++ '.' :: joinDot ps := by
  cases ps with
  | nil => cases hps rfl
  | cons q qs => rfl

lemma split_join_roundtrip :
    ∀ ps : List (List Char), ps ≠ [] → (∀ p ∈ ps, '.' ∉ p) →
      splitOnChar '.' (joinDot ps) = ps := by
  intro ps
  induction ps with
  | nil => intro h; cases h rfl
  | cons p qs ih =>
    intro _ hfree
    cases qs with
    | nil =>
      show splitOnChar '.' p = [p]
      exact splitOnChar_sepfree (hfree p (List.mem_cons_self p []))
    | cons q qs' =>
      rw [joinDot_cons (by simp)]
      rw [splitOnChar_append_sep _ (hfree p (List.mem_cons_self _ _))]
      rw [ih (by simp) (fun x hx => hfree x (List.mem_cons_of_mem p hx))]

lemma cand_parts {A B : List (List Char)} (k : Nat)
    (hA : ∀ p ∈ A, '.' ∉ p) (hB : ∀ p ∈ B, '.' ∉ p) :
    splitOnChar '.' (cand A B k) = A ++ [natDecimal k] ++ B := by
  apply split_join_roundtrip
  · simp
  · intro p hp
    rcases List.mem_append.1 hp with hab | hb
    · rcases List.mem_append.1 hab with ha | hm
      · exact hA p ha
      · rcases List.mem_singleton.1 hm with he
        exact he ▸ natDecimal_no_dot k
    · exact hB p hb

lemma cand_injective {A B : List (List Char)}
    (hA : ∀ p ∈ A, '.' ∉ p) (hB : ∀ p ∈ B, '.' ∉ p) :
    Function.Injective (cand A B) := by
  intro j j' h
  have h2 : A ++ [natDecimal j] ++ B = A ++ [natDecimal j'] ++ B := by
    rw [← cand_parts j hA hB, ← cand_parts j' hA hB, h]
  have h3 : A ++ [natDecimal j] = A ++ [natDecimal j'] :=
    List.append_cancel_right h2
  have h4 : [natDecimal j] = [natDecimal j'] :=
    List.append_cancel_left h3
  have h5 : natDecimal j = natDecimal j' := by injection h4
  exact natDecimal_inj h5

lemma uniquifyStep_canon {A B : List (List Char)} {k : Nat}
    (hA : ∀ p ∈ A, '.' ∉ p) (hB : ∀ p ∈ B, '.' ∉ p)
    (hBlen : B.length = 1) (hk : 1 ≤ k) :
    uniquifyStep (cand A B k) (k + 1) = cand A B (k + 1) := by
  have hsplit := cand_parts k hA hB
  have hlen : (A ++ [natDecimal k] ++ B).length = A.length + 2 := by
    simp [hBlen]
  simp only [uniquifyStep, hsplit, hlen]
  rw [if_neg (by omega)]
  have htake : (A ++ [natDecimal k] ++ B).take (A.length + 2 - 2) = A := by
    rw [show A.length + 2 - 2 = A.length from rfl, List.append_assoc,
      List.take_left]
  have hdrop : (A ++ [natDecimal k] ++ B).drop (A.length + 2 - 2 + 1) = B := by
    have : A.length + 2 - 2 + 1 = (A ++ [natDecimal k]).length := by simp
    rw [this, List.drop_left]
  rw [htake, hdrop]
  rfl

lemma uniquifyLoop_succ (vals : List (List Char)) (name : List Char) (i f : Nat) :
    uniquifyLoop vals name i (f + 1)
      = if name ∈ vals then uniquifyLoop vals (uniquifyStep name i) (i + 1) f
        else name := rfl

/-- When some candidate within the fuel window avoids the taken values,
the loop returns a candidate that is not taken. -/
lemma uniquifyLoop_canon {vals : List (List Char)} {A B : List (List Char)}
    (hA : ∀ p ∈ A, '.' ∉ p) (hB : ∀ p ∈ B, '.' ∉ p) (hBlen : B.length = 1) :
    ∀ (fuel k : Nat), 1 ≤ k →
      (∃ j, k ≤ j ∧ j < k + fuel ∧ cand A B j ∉ vals) →
      uniquifyLoop vals (cand A B k) (k + 1) fuel ∉ vals ∧
        ∃ j, k ≤ j ∧ uniquifyLoop vals (cand A B k) (k + 1) fuel = cand A B j := by
  intro fuel
  induction fuel with
  | zero =>
    intro k _ hex
    rcases hex with ⟨j, hj1, hj2, _⟩
    omega
  | succ f ih =>
    intro k hk hex
    rw [uniquifyLoop_succ]
    by_cases hmem : cand A B k ∈ vals
    · rw [if_pos hmem, uniquifyStep_canon hA hB hBlen hk]
      have hex' : ∃ j, k + 1 ≤ j ∧ j < (k + 1) + f ∧ cand A B j ∉ vals := by
        rcases hex with ⟨j, hj1, hj2, hj3⟩
        refine ⟨j, ?_, by omega, hj3⟩
        rcases Nat.eq_or_lt_of_le hj1 with he | hl
        · exact absurd (he ▸ hmem) hj3
        · omega
      rcases ih (k + 1) (by omega) hex' with ⟨h1, j', hj'1, hj'2⟩
      exact ⟨h1, j', by omega, hj'2⟩
    · rw [if_neg hmem]
      exact ⟨hmem, k, Nat.le_refl k, rfl⟩

/-- Pigeonhole: some candidate among `1 .. vals.length` is not taken. -/
lemma exists_cand_notin {vals : List (List Char)} {A B : List (List Char)}
    {name : List Char}
    (hA : ∀ p ∈ A, '.' ∉ p) (hB : ∀ p ∈ B, '.' ∉ p)
    (hname : name ∈ vals)
    (hne : ∀ j, name ≠ cand A B j) :
    ∃ j, 1 ≤ j ∧ j < 1 + vals.length ∧ cand A B j ∉ vals := by
  by_contra habs
  push_neg at habs
  have hall : ∀ j, 1 ≤ j → j < 1 + vals.length → cand A B j ∈ vals := by
    intro j h1 h2
    exact habs j h1 h2
  set L : List (List Char) := name :: (List.range' 1 vals.length).map (cand A B) with hL
  have hnodup : L.Nodup := by
    rw [hL]
    refine List.nodup_cons.2 ⟨?_, ?_⟩
    · intro hmem
      rcases List.mem_map.1 hmem with ⟨j, _, hj⟩
      exact hne j hj.symm
    · exact (List.nodup_range' ..).map (cand_injective hA hB)
  have hsub : L ⊆ vals := by
    intro x hx
    rw [hL] at hx
    rcases List.mem_cons.1 hx with he | hm
    · exact he ▸ hname
    · rcases List.mem_map.1 hm with ⟨j, hj1, hj2⟩
      rcases List.mem_range'_1.1 hj1 with ⟨h1, h2⟩
      exact hj2 ▸ hall j h1 (by omega)
  have hlen : L.length ≤ vals.length := (hnodup.subperm hsub).length_le
  rw [hL] at hlen
  simp [List.length_range'] at hlen

/-- The collision-resolution loop, with fuel `vals.length + 1`, always
returns a filename that is not among the taken values. -/
lemma uniquify_not_mem (vals : List (List Char)) (name : List Char) :
    uniquify vals name ∉ vals := by
  unfold uniquify
  rw [uniquifyLoop_succ]
  by_cases hmem : name ∈ vals
  · rw [if_pos hmem]
    set parts := splitOnChar '.' name with hparts
    have hplen : 1 ≤ parts.length := by
      have := splitOnChar_ne_nil '.' name
      rw [← hparts] at this
      cases hp : parts with
      | nil => exact absurd hp this
      | cons a as => simp [hp]
    set A := parts.take (parts.length - 1) with hA
    set B := parts.drop (parts.length - 1) with hB
    have hAfree : ∀ p ∈ A, '.' ∉ p := by
      intro p hp
      exact splitOnChar_no_sep '.' name p (hparts ▸ List.take_subset _ _ hp)
    have hBfree : ∀ p ∈ B, '.' ∉ p := by
      intro p hp
      exact splitOnChar_no_sep '.' name p (hparts ▸ List.drop_subset _ _ hp)
    have hBlen : B.length = 1 := by
      rw [hB, List.length_drop]
      omega
    have hstep1 : uniquifyStep name 1 = cand A B 1 := by
      simp only [uniquifyStep, ← hparts, ← hA, ← hB, if_pos rfl]
      rfl
    have hALen : A.length = parts.length - 1 := by
      rw [hA, List.length_take]
      omega
    have hne : ∀ j, name ≠ cand A B j := by
      intro j he
      have h1 : splitOnChar '.' name = A ++ [natDecimal j] ++ B := by
        rw [he]
        exact cand_parts j hAfree hBfree
      have h2 : parts.length = A.length + 1 + B.length := by
        rw [← hparts] at h1
        rw [h1]
        simp only [List.length_append, List.length_cons, List.length_nil]
      omega
    rcases exists_cand_notin hAfree hBfree hmem hne with ⟨j, hj1, hj2, hj3⟩
    rw [hstep1]
    exact (uniquifyLoop_canon hAfree hBfree hBlen vals.length 1 (by omega)
      ⟨j, hj1, by omega, hj3⟩).1
  · rw [if_neg hmem]
    exact hmem

/-! Manifest bookkeeping lemmas. -/

lemma mVals_mSet_subset (m : Manifest) (k v : List Char) :
    mVals (mSet m k v) ⊆ v :: mVals m := by
  induction m with
  | nil =>
    intro x hx
    simp [mSet, mVals] at hx
    simp [hx]
  | cons e rest ih =>
    obtain ⟨k', v'⟩ := e
    intro x hx
    by_cases hk : k' = k
    · simp only [mSet, if_pos hk, mVals, List.map_cons] at hx
      rcases List.mem_cons.1 hx with he | hm
      · simp [he]
      · exact List.mem_cons_of_mem _ (List.mem_cons_of_mem _ hm)
    · simp only [mSet, if_neg hk, mVals, List.map_cons] at hx
      rcases List.mem_cons.1 hx with he | hm
      · subst he
        exact List.mem_cons_of_mem _ (List.mem_cons_self _ _)
      · rcases List.mem_cons.1 (ih hm) with he2 | hm2
        · simp [he2]
        · exact List.mem_cons_of_mem _ (List.mem_cons_of_mem _ hm2)

lemma nodup_mVals_mSet {m : Manifest} {k v : List Char}
    (hm : (mVals m).Nodup) (hv : v ∉ mVals m) :
    (mVals (mSet m k v)).Nodup := by
  induction m with
  | nil => simp [mSet, mVals]
  | cons e rest ih =>
    obtain ⟨k', v'⟩ := e
    have hcons : mVals ((k', v') :: rest) = v' :: mVals rest := rfl
    rw [hcons] at hm hv
    have hvne : v ≠ v' := fun he => hv (he ▸ List.mem_cons_self v' (mVals rest))
    have hvrest : v ∉ mVals rest := fun hmm => hv (List.mem_cons_of_mem _ hmm)
    rw [List.nodup_cons] at hm
    by_cases hk : k' = k
    · simp only [mSet, if_pos hk, mVals, List.map_cons, List.nodup_cons]
      exact ⟨hvrest, hm.2⟩
    · simp only [mSet, if_neg hk, mVals, List.map_cons, List.nodup_cons]
      refine ⟨?_, ih hm.2 hvrest⟩
      intro habs
      rcases List.mem_cons.1 (mVals_mSet_subset rest k v habs) with he | hm2
      · exact hvne he.symm
      · exact hm.1 hm2

lemma nodup_mVals_addImage {m : Manifest} (src computed : List Char)
    (hm : (mVals m).Nodup) : (mVals (addImage m src computed)).Nodup := by
  cases hl : mLookup m src with
  | none =>
    simp only [addImage, hl]
    exact nodup_mVals_mSet hm (uniquify_not_mem (mVals m) computed)
  | some v =>
    simp only [addImage, hl]
    by_cases hcond : v = [] ∨ v ≠ computed
    · rw [if_pos hcond]
      exact nodup_mVals_mSet hm (uniquify_not_mem (mVals m) computed)
    · rw [if_neg hcond]
      exact hm

lemma nodup_mVals_foldl (events : List (List Char × List Char)) :
    ∀ m : Manifest, (mVals m).Nodup →
      (mVals (events.foldl (fun m e => addImage m e.1 e.2) m)).Nodup := by
  induction events with
  | nil => intro m hm; exact hm
  | cons e es ih =>
    intro m hm
    exact ih _ (nodup_mVals_addImage e.1 e.2 hm)

/-! Theorems for claim C5. -/

/-- C5.  The image manifest maps distinct source URLs to pairwise-distinct
destination filenames: for every sequence of processed images the values of
the resulting manifest are nodup; and in the concrete collision scenario —
two distinct images whose computed filename is `image.png` — the second
receives `image.1.png`: the numeric disambiguator is inserted before the
extension and both values end in the original `.png` extension. -/
theorem C5_image_manifest_unique :
    (∀ events : List (List Char × List Char),
      (mVals (buildManifest events)).Nodup)
    ∧ buildManifest
        [("imgA".toList, "image.png".toList), ("imgB".toList, "image.png".toList)]
        = [("imgA".toList, "image.png".toList), ("imgB".toList, "image.1.png".toList)]
    ∧ endsWithL "image.png".toList ".png".toList = true
    ∧ endsWithL "image.1.png".toList ".png".toList = true := by
  refine ⟨?_, by decide, by decide, by decide⟩
  intro events
  exact nodup_mVals_foldl events [] (by simp [mVals])

/-! Lemmas: the cleanup pass leaves no single-line token. -/

lemma findClose_none_no_close {l : List Char} (h : '\x7d' ∉ l) :
    findClose l = none := by
  induction l with
  | nil => rfl
  | cons c cs ih =>
    have hc : c ≠ '\x7d' := fun he => h (he ▸ List.mem_cons_self c cs)
    have hcs : '\x7d' ∉ cs := fun hm => h (List.mem_cons_of_mem c hm)
    unfold findClose
    rw [if_neg hc, ih hcs]
    split <;> rfl

lemma hasSameLineToken_cons (c : Char) (cs : List Char) :
    hasSameLineToken (c :: cs)
      = ((decide (c = '\x7b') && (findClose cs).isSome) || hasSameLineToken cs) := rfl

lemma hasSameLineToken_false_of_no_close {l : List Char} (h : '\x7d' ∉ l) :
    hasSameLineToken l = false := by
  induction l with
  | nil => rfl
  | cons c cs ih =>
    have hcs : '\x7d' ∉ cs := fun hm => h (List.mem_cons_of_mem c hm)
    rw [hasSameLineToken_cons, findClose_none_no_close hcs, ih hcs]
    simp

lemma findClose_append_blocked {xs : List Char} {c : Char} (z : List Char)
    (hxs : '\x7d' ∉ xs) (hc : jsLineTerm c = true) :
    findClose (xs ++ c :: z) = none := by
  induction xs with
  | nil =>
    have hne : c ≠ '\x7d' := by
      intro he
      rw [he] at hc
      simp [jsLineTerm] at hc
    show findClose (c :: z) = none
    unfold findClose
    rw [if_neg hne, if_pos hc]
  | cons x xs' ih =>
    have hx : x ≠ '\x7d' := fun he => hxs (he ▸ List.mem_cons_self x xs')
    have hxs' : '\x7d' ∉ xs' := fun hm => hxs (List.mem_cons_of_mem x hm)
    show findClose (x :: (xs' ++ c :: z)) = none
    unfold findClose
    rw [if_neg hx, ih hxs']
    split <;> rfl

lemma hasSameLineToken_append_blocked {xs : List Char} {c : Char} (z : List Char)
    (hxs : '\x7d' ∉ xs) (hc : jsLineTerm c = true) :
    hasSameLineToken (xs ++ c :: z) = hasSameLineToken z := by
  induction xs with
  | nil =>
    show hasSameLineToken (c :: z) = hasSameLineToken z
    have hne : c ≠ '\x7b' := by
      intro he
      rw [he] at hc
      simp [jsLineTerm] at hc
    rw [hasSameLineToken_cons]
    simp [hne]
  | cons x xs' ih =>
    have hxs' : '\x7d' ∉ xs' := fun hm => hxs (List.mem_cons_of_mem x hm)
    show hasSameLineToken (x :: (xs' ++ c :: z)) = hasSameLineToken z
    rw [hasSameLineToken_cons, findClose_append_blocked z hxs' hc, ih hxs']
    simp

lemma cleanGo_no_token :
    ∀ (l buf : List Char), '\x7d' ∉ buf →
      hasSameLineToken (cleanGo l buf) = false := by
  intro l
  induction l with
  | nil =>
    intro buf hbuf
    exact hasSameLineToken_false_of_no_close hbuf
  | cons c cs ih =>
    intro buf hbuf
    cases buf with
    | nil =>
      by_cases hc : c = '\x7b'
      · rw [show cleanGo (c :: cs) [] = cleanGo cs ['\x7b'] by
          simp [cleanGo, hc]]
        exact ih ['\x7b'] (by decide)
      · rw [show cleanGo (c :: cs) [] = c :: cleanGo cs [] by
          simp [cleanGo, hc]]
        rw [hasSameLineToken_cons, ih [] (by simp)]
        simp [hc]
    | cons b bs =>
      by_cases hc : c = '\x7d'
      · rw [show cleanGo (c :: cs) (b :: bs) = cleanGo cs [] by
          simp [cleanGo, hc]]
        exact ih [] (by simp)
      · by_cases hlt : jsLineTerm c = true
        · rw [show cleanGo (c :: cs) (b :: bs) = (b :: bs) ++ c :: cleanGo cs [] by
            simp [cleanGo, hc, hlt]]
          rw [hasSameLineToken_append_blocked _ hbuf hlt]
          exact ih [] (by simp)
        · rw [show cleanGo (c :: cs) (b :: bs) = cleanGo cs ((b :: bs) ++ [c]) by
            simp [cleanGo, hc, hlt]]
          apply ih
          intro hm
          rcases List.mem_append.1 hm with h1 | h2
          · exact hbuf h1
          · exact hc (List.mem_singleton.1 h2).symm

lemma jsCleanup_no_token (l : List Char) :
    hasSameLineToken (jsCleanup l) = false :=
  cleanGo_no_token l [] (by simp)

/-! Theorems for claim C1. -/

/-- C1 counterexample.  The template `"{keywords:\n}"` uses only the known
placeholder form `{keywords:<separator>}` (separator = a newline), yet
`textReplace` returns it unchanged: the keywords regex and the final
cleanup regex both use `.`, which cannot cross a line terminator, so the
token is neither substituted nor stripped and a complete `{...}` token
remains in the output. -/
theorem C1_counterexample_newline_separator :
    textReplace "\x7bkeywords:\n\x7d" demoArticle none (fun f => f)
      = some "\x7bkeywords:\n\x7d"
    ∧ hasBraceToken "\x7bkeywords:\n\x7d".toList = true := by
  constructor
  · decide
  · decide

/-- C1 amended.  For every template, document record, disallow-list and
date formatter, whenever `textReplace` returns a string, that string
contains no unresolved *single-line* `{...}` token: every `{` placed
before a `}` on the same line is consumed by substitution or by the final
cleanup.  (A placeholder whose interior spans a line terminator — such as
a keywords separator containing a newline — is not substituted and remains
verbatim.) -/
theorem C1_amended_no_unresolved_single_line_token :
    ∀ (template : String) (a : Article) (d : Option String)
      (fmtDate : List Char → List Char) (out : String),
      textReplace template a d fmtDate = some out →
      hasSameLineToken out.toList = false := by
  intro template a d fmtDate out h
  unfold textReplace at h
  cases hf : fieldSteps (articleProps a) d template.toList with
  | none => rw [hf] at h; cases h
  | some s1 =>
    rw [hf] at h
    simp only [Option.some_bind] at h
    cases hk : keywordStep (a.keywords.map String.toList) (dateStep fmtDate s1) with
    | none => rw [hk] at h; cases h
    | some s3 =>
      rw [hk] at h
      simp only [Option.map_some'] at h
      have : out = (⟨jsCleanup s3⟩ : String) := (Option.some.injEq .. ▸ h).symm
      rw [this, toList_string_mk]
      exact jsCleanup_no_token s3

/-- Witness for C1 amended: the theorem applied at a concrete template and
record. -/
theorem C1_amended_witness :
    hasSameLineToken ("T!" : String).toList = false :=
  C1_amended_no_unresolved_single_line_token "\x7btitle\x7d!" demoArticle none
    (fun f => f) "T!" (by decide)

/-! Theorems for claim C8. -/

/-- C8 counterexample.  In the Org path the preamble is substituted from
the document record and prepended after `orgdown` has already stripped the
engine output, so a zero-width space (U+200B) carried into the preamble by
the article's title survives into the final output. -/
theorem C8_counterexample_org_preamble :
    convertArticleToOrgModel zwspArticle true "\x7btitle\x7d" (fun f => f) "body"
      = some "a​b\n\nbody"
    ∧ noNonPrinting "a​b\n\nbody" = false := by
  constructor
  · decide
  · decide

/-- C8 amended.  The Markdown path strips the denylist from the *whole*
final document — template-substituted frontmatter and backmatter included —
and the Org path strips the converted body; but the template-substituted
Org preamble is prepended after stripping and is not itself stripped.
(When no preamble is emitted, the Org output is fully stripped.) -/
theorem C8_amended_stripping :
    (∀ (a : Article) (it : Bool) (fmT bmT : String)
       (f : List Char → List Char) (body out : String),
       convertArticleToMarkdownModel a it fmT bmT f body = some out →
       noNonPrinting out = true)
    ∧ (∀ (a : Article) (pT : String) (f : List Char → List Char)
         (body out : String),
         convertArticleToOrgModel a false pT f body = some out →
         noNonPrinting out = true) := by
  have hstrip : ∀ s : String, noNonPrinting (stripNonPrinting s) = true := by
    intro s
    apply List.all_eq_true.2
    intro c hc
    have := List.of_mem_filter (p := fun c => !isNonPrintingChar c) hc
    simpa using this
  constructor
  · intro a it fmT bmT f body out h
    unfold convertArticleToMarkdownModel at h
    by_cases hit : it = true
    · rw [if_pos hit] at h
      cases hfm : textReplace fmT a none f with
      | none => rw [hfm] at h; cases h
      | some fm =>
        rw [hfm] at h
        simp only [Option.some_bind] at h
        cases hbm : textReplace bmT a none f with
        | none => rw [hbm] at h; cases h
        | some bm =>
          rw [hbm] at h
          simp only [Option.map_some'] at h
          have : out = turndownAssemble (fm ++ "\n") body ("\n" ++ bm) :=
            (Option.some.injEq .. ▸ h).symm
          rw [this]
          exact hstrip _
    · rw [if_neg hit] at h
      have : out = turndownAssemble "" body "" := (Option.some.injEq .. ▸ h).symm
      rw [this]
      exact hstrip _
  · intro a pT f body out h
    unfold convertArticleToOrgModel at h
    rw [if_neg (by simp)] at h
    have : out = orgdownAssemble body := (Option.some.injEq .. ▸ h).symm
    rw [this]
    exact hstrip _

/-- Witness for C8 amended: both conjuncts applied at concrete inputs. -/
theorem C8_amended_witness :
    noNonPrinting "T\nbody\n" = true ∧ noNonPrinting "body" = true := by
  constructor
  · exact C8_amended_stripping.1 demoArticle true "\x7btitle\x7d" "" (fun f => f)
      "body" "T\nbody\n" (by decide)
  · exact C8_amended_stripping.2 demoArticle "\x7btitle\x7d" (fun f => f)
      "body" "body" (by decide)

/-! Theorem for claim C7. -/

/-- C7 (code bug).  A blob-URL image download is tracked in
`markSnipUrls` (URL-keyed) and `activeDownloads` but never enters
`markSnipDownloads`; on the terminal `complete` event the handler deletes
the identifier-keyed records, but its URL-cleanup block only reaches
`markSnipUrls` through a `markSnipDownloads` entry — which does not exist
(and which the first block would in any case have just deleted) — so the
URL-keyed record survives the terminal state, contradicting the invariant
and the cleanup comment in the code itself. -/
theorem C7_dangling_url_record_after_terminal :
    alGet c7AfterComplete.activeDownloads 7 = none
    ∧ alGet c7AfterComplete.markSnipDownloads 7 = none
    ∧ alGet c7AfterComplete.markSnipUrls "blob:chrome-extension://abc/img"
        = some ⟨"folder/img.png", true⟩ := by
  refine ⟨by decide, by decide, by decide⟩

/-! Lemmas for the table matrix. -/

lemma get?_append_left {α : Type} (l₁ l₂ : List α) {n : Nat} (h : n < l₁.length) :
    (l₁ ++ l₂).get? n = l₁.get? n := by
  induction l₁ generalizing n with
  | nil => simp at h
  | cons x xs ih =>
    cases n with
    | zero => rfl
    | succ m =>
      show (xs ++ l₂).get? m = xs.get? m
      exact ih (by simpa using Nat.lt_of_succ_lt_succ h)

lemma get?_append_right {α : Type} (l₁ l₂ : List α) {n : Nat} (h : l₁.length ≤ n) :
    (l₁ ++ l₂).get? n = l₂.get? (n - l₁.length) := by
  induction l₁ generalizing n with
  | nil => simp
  | cons x xs ih =>
    cases n with
    | zero => simp at h
    | succ m =>
      have hstep : ((x :: xs) ++ l₂).get? (m + 1) = (xs ++ l₂).get? m := rfl
      rw [hstep, ih (by simpa using Nat.le_of_succ_le_succ h),
        show m + 1 - (x :: xs).length = m - xs.length by
          simp only [List.length_cons]; omega]

lemma get?_ge_none {α : Type} (l : List α) {n : Nat} (h : l.length ≤ n) :
    l.get? n = none := by
  induction l generalizing n with
  | nil => rfl
  | cons x xs ih =>
    cases n with
    | zero => simp at h
    | succ m => exact ih (by simpa using Nat.le_of_succ_le_succ h)

lemma get?_lt_some {α : Type} (l : List α) {n : Nat} (h : n < l.length) :
    ∃ v, l.get? n = some v := by
  induction l generalizing n with
  | nil => simp at h
  | cons x xs ih =>
    cases n with
    | zero => exact ⟨x, rfl⟩
    | succ m => exact ih (by simpa using Nat.lt_of_succ_lt_succ h)

lemma get?_set_self {α : Type} (l : List α) {i : Nat} (a : α) (h : i < l.length) :
    (l.set i a).get? i = some a := by
  induction l generalizing i with
  | nil => simp at h
  | cons x xs ih =>
    cases i with
    | zero => rfl
    | succ m =>
      show (xs.set m a).get? m = some a
      exact ih (by simpa using Nat.lt_of_succ_lt_succ h)

lemma get?_set_ne {α : Type} (l : List α) {i j : Nat} (a : α) (h : i ≠ j) :
    (l.set i a).get? j = l.get? j := by
  induction l generalizing i j with
  | nil => rfl
  | cons x xs ih =>
    cases i with
    | zero =>
      cases j with
      | zero => exact absurd rfl h
      | succ m => rfl
    | succ n =>
      cases j with
      | zero => rfl
      | succ m =>
        show (xs.set n a).get? m = xs.get? m
        exact ih (fun he => h (he ▸ rfl))

lemma get?_replicate {α : Type} (n : Nat) (a : α) (i : Nat) :
    (List.replicate n a).get? i = if i < n then some a else none := by
  induction n generalizing i with
  | zero => simp
  | succ m ih =>
    cases i with
    | zero => simp
    | succ k =>
      show (List.replicate m a).get? k = _
      rw [ih k]
      by_cases h : k < m
      · rw [if_pos h, if_pos (by omega)]
      · rw [if_neg h, if_neg (by omega)]

lemma get?_concat_len {α : Type} (l : List α) (a : α) :
    (l ++ [a]).get? l.length = some a := by
  induction l with
  | nil => rfl
  | cons x xs ih => exact ih

lemma set_of_get? {α : Type} (l : List α) {i : Nat} {v : α} (h : l.get? i = some v) :
    l.set i v = l := by
  induction l generalizing i with
  | nil => rfl
  | cons x xs ih =>
    cases i with
    | zero =>
      have : x = v := by injection h
      rw [List.set_cons_zero, this]
    | succ m =>
      show x :: xs.set m v = x :: xs
      rw [ih h]

lemma set_append_len {α : Type} (a b : List α) (v : α) (k : Nat) :
    (a ++ b).set (a.length + k) v = a ++ b.set k v := by
  induction a with
  | nil => simp
  | cons x xs ih =>
    rw [show (x :: xs).length + k = (xs.length + k) + 1 by
      simp only [List.length_cons]; omega]
    show x :: (xs ++ b).set (xs.length + k) v = x :: (xs ++ b.set k v)
    rw [ih]

lemma ensureRow_getEntry (m : List (List (List Char))) (r p q : Nat) (w : List Nat) :
    getEntry ⟨ensureRow m r, w⟩ p q = getEntry ⟨m, w⟩ p q := by
  unfold getEntry ensureRow
  by_cases h : r < m.length
  · rw [if_pos h]
  · rw [if_neg h]
    by_cases hp : p < m.length
    · rw [get?_append_left _ _ hp]
    · push_neg at hp
      rw [get?_append_right _ _ hp, get?_ge_none m hp, get?_replicate]
      by_cases hin : p - m.length < r + 1 - m.length
      · rw [if_pos hin]
        rfl
      · rw [if_neg hin]

lemma ensureRow_length_gt (m : List (List (List Char))) (r : Nat) :
    r < (ensureRow m r).length := by
  unfold ensureRow
  by_cases h : r < m.length
  · rw [if_pos h]; exact h
  · rw [if_neg h]
    push_neg at h
    simp only [List.length_append, List.length_replicate]
    omega

lemma writeSlot_changes (st : TState) (tr : Nat) (pc : List Char) (vl : Nat)
    (p q : Nat)
    (h : getEntry (writeSlot st tr pc vl) p q ≠ getEntry st p q) :
    getEntry (writeSlot st tr pc vl) p q = some pc := by
  have hens := ensureRow_getEntry st.matrix tr p q st.widths
  have htr : tr < (ensureRow st.matrix tr).length := ensureRow_length_gt st.matrix tr
  obtain ⟨row, hrow⟩ := get?_lt_some (ensureRow st.matrix tr) htr
  simp only [writeSlot, hrow, Option.getD_some] at h ⊢
  by_cases hp : p = tr
  · subst hp
    unfold getEntry at h ⊢
    rw [get?_set_self _ _ (by simpa using htr)] at h ⊢
    simp only [Option.some_bind] at h ⊢
    unfold getEntry at hens
    rw [hrow] at hens
    simp only [Option.some_bind] at hens
    rw [← hens] at h
    by_cases hq : q < row.length
    · exact absurd (get?_append_left row [pc] hq) h
    · push_neg at hq
      rcases Nat.eq_or_lt_of_le hq with he | hl
      · rw [← he, get?_concat_len]
      · have h1 : (row ++ [pc]).get? q = none := by
          apply get?_ge_none
          simp only [List.length_append, List.length_cons, List.length_nil]
          omega
        have h2 : row.get? q = none := get?_ge_none row (by omega)
        rw [h1, h2] at h
        exact absurd rfl h
  · unfold getEntry at h ⊢
    rw [get?_set_ne _ _ (fun he => hp he.symm)] at h ⊢
    unfold getEntry at hens
    exact absurd hens h

lemma foldl_changes {α : Type} (f : TState → α → TState) (v : List Char)
    (hf : ∀ st a p q, getEntry (f st a) p q ≠ getEntry st p q →
      getEntry (f st a) p q = some v) :
    ∀ (l : List α) (st : TState) (p q : Nat),
      getEntry (l.foldl f st) p q ≠ getEntry st p q →
      getEntry (l.foldl f st) p q = some v := by
  intro l
  induction l with
  | nil => intro st p q h; exact absurd rfl h
  | cons a l' ih =>
    intro st p q h
    simp only [List.foldl_cons] at h ⊢
    by_cases hmid : getEntry (l'.foldl f (f st a)) p q = getEntry (f st a) p q
    · rw [hmid] at h ⊢
      exact hf st a p q h
    · exact ih (f st a) p q hmid

/-- Every matrix slot that placing a cell modifies receives exactly that
cell's rendered content. -/
lemma placeCell_changes (st : TState) (r : Nat) (cell : CellData) (p q : Nat)
    (h : getEntry (placeCell st r cell) p q ≠ getEntry st p q) :
    getEntry (placeCell st r cell) p q = some cell.content.toList := by
  unfold placeCell at h ⊢
  refine foldl_changes _ _ ?_ _ _ _ _ h
  intro st1 i p1 q1 h1
  refine foldl_changes _ _ ?_ _ _ _ _ h1
  intro st2 _j p2 q2 h2
  exact writeSlot_changes st2 (r + i) _ _ p2 q2 h2

/-! Theorems for claim C4. -/

/-- C4.  Every position of the matrix that placing a cell touches holds
that cell's rendered content — a spanned region is filled with identical
content; in particular a 2×2 table whose single cell spans all 4 positions
yields a matrix with the same string in all 4 slots. -/
theorem C4_span_fills_identical_content :
    (∀ (st : TState) (r : Nat) (cell : CellData) (p q : Nat),
      getEntry (placeCell st r cell) p q ≠ getEntry st p q →
      getEntry (placeCell st r cell) p q = some cell.content.toList)
    ∧ (buildTable [[⟨"X", 2, 2⟩], []]).matrix
        = [["X".toList, "X".toList], ["X".toList, "X".toList]] := by
  refine ⟨placeCell_changes, by decide⟩

/-- Witness for C4: a slot changed by placing a concrete cell holds the
cell's content. -/
theorem C4_span_witness :
    getEntry (placeCell ⟨[[]], []⟩ 0 ⟨"X", 1, 1⟩) 0 0 = some "X".toList :=
  C4_span_fills_identical_content.1 ⟨[[]], []⟩ 0 ⟨"X", 1, 1⟩ 0 0 (by decide)

/-! Lemmas for claim C3: shape of the emitted table for span-free tables. -/

lemma updateWidth_length {w : List Nat} {idx : Nat} (vl : Nat) (h : idx ≤ w.length) :
    (updateWidth w idx vl).length = max w.length (idx + 1) := by
  cases hg : w.get? idx with
  | some x =>
    have hlt : idx < w.length := by
      by_contra habs
      push_neg at habs
      rw [get?_ge_none w habs] at hg
      cases hg
    have hmax : max w.length (idx + 1) = w.length := Nat.max_eq_left (by omega)
    simp only [updateWidth, hg, hmax]
    by_cases hb : x = 0 ∨ x < vl
    · rw [if_pos hb, List.length_set]
    · rw [if_neg hb]
  | none =>
    have hge : w.length ≤ idx := by
      by_contra habs
      push_neg at habs
      rcases get?_lt_some w habs with ⟨v, hv⟩
      rw [hv] at hg
      cases hg
    have hidx : idx = w.length := by omega
    subst hidx
    simp only [updateWidth, hg]
    simp only [List.length_append, List.length_cons, List.length_nil]
    omega

lemma placeCell_span1 (st : TState) (r : Nat) (s : String) :
    placeCell st r ⟨s, 1, 1⟩ = writeSlot st r s.toList (visibleLenMatrix s.toList) := rfl

lemma writeSlot_at {st : TState} {tr : Nat} {part : List (List Char)}
    (h : st.matrix.get? tr = some part) (pc : List Char) (vl : Nat) :
    writeSlot st tr pc vl
      = ⟨st.matrix.set tr (part ++ [pc]), updateWidth st.widths part.length vl⟩ := by
  have hlt : tr < st.matrix.length := by
    by_contra habs
    push_neg at habs
    rw [get?_ge_none _ habs] at h
    cases h
  simp only [writeSlot, ensureRow, if_pos hlt, h, Option.getD_some]

lemma rowFold_span1 :
    ∀ (cells : List CellData) (st : TState) (i : Nat) (part : List (List Char)),
      (∀ c ∈ cells, c.rowspan = 1 ∧ c.colspan = 1) →
      st.matrix.get? i = some part →
      part.length ≤ st.widths.length →
      ∃ w', cells.foldl (fun s c => placeCell s i c) st
          = ⟨st.matrix.set i (part ++ cells.map (fun c => c.content.toList)), w'⟩
        ∧ w'.length = max st.widths.length (part.length + cells.length) := by
  intro cells
  induction cells with
  | nil =>
    intro st i part _ hget hw
    refine ⟨st.widths, ?_, by simp only [List.length_nil, Nat.add_zero]; omega⟩
    simp only [List.foldl_nil, List.map_nil, List.append_nil]
    rw [set_of_get? _ hget]
  | cons c cs ih =>
    intro st i part hall hget hw
    have hspan := hall c (List.mem_cons_self c cs)
    have hplace : placeCell st i c = writeSlot st i c.content.toList
        (visibleLenMatrix c.content.toList) := by
      have : c = ⟨c.content, 1, 1⟩ := by
        cases c
        simp_all
      rw [this]
      exact placeCell_span1 st i c.content
    have hlt : i < st.matrix.length := by
      by_contra habs
      push_neg at habs
      rw [get?_ge_none _ habs] at hget
      cases hget
    rw [List.foldl_cons, hplace, writeSlot_at hget]
    set st' : TState :=
      ⟨st.matrix.set i (part ++ [c.content.toList]),
        updateWidth st.widths part.length (visibleLenMatrix c.content.toList)⟩
      with hst'
    have hget' : st'.matrix.get? i = some (part ++ [c.content.toList]) :=
      get?_set_self _ _ hlt
    have hw'len : st'.widths.length = max st.widths.length (part.length + 1) :=
      updateWidth_length _ hw
    have hw' : (part ++ [c.content.toList]).length ≤ st'.widths.length := by
      rw [hw'len]
      simp only [List.length_append, List.length_cons, List.length_nil]
      omega
    rcases ih st' i (part ++ [c.content.toList])
      (fun x hx => hall x (List.mem_cons_of_mem c hx)) hget' hw' with ⟨w'', heq, hlen⟩
    refine ⟨w'', ?_, ?_⟩
    · rw [heq, hst']
      simp only [List.set_set, List.append_assoc, List.singleton_append,
        List.map_cons]
    · rw [hlen, hw'len]
      simp only [List.length_append, List.length_cons, List.length_nil,
        List.map_cons]
      omega

lemma buildRowsGo_uniform (M : Nat) :
    ∀ (rs : List (List CellData)) (done : List (List (List Char))) (st : TState),
      (∀ row ∈ rs, ∀ c ∈ row, c.rowspan = 1 ∧ c.colspan = 1) →
      (∀ row ∈ rs, row.length = M) →
      st.matrix = done ++ List.replicate rs.length [] →
      st.widths.length ≤ M →
      ∃ w', buildRowsGo st done.length rs
          = ⟨done ++ rs.map (fun row => row.map (fun c => c.content.toList)), w'⟩
        ∧ w'.length = (if rs = [] then st.widths.length else M) := by
  intro rs
  induction rs with
  | nil =>
    intro done st _ _ hmat _
    refine ⟨st.widths, ?_, by simp⟩
    show st = _
    simp only [List.replicate, List.append_nil] at hmat
    simp only [List.map_nil, List.append_nil]
    cases st
    simp_all
  | cons row rest ih =>
    intro done st hall hM hmat hwle
    have hget : st.matrix.get? done.length = some [] := by
      rw [hmat, get?_append_right _ _ (Nat.le_refl _), Nat.sub_self,
        get?_replicate]
      rw [if_pos (by simp)]
    rcases rowFold_span1 row st done.length []
      (hall row (List.mem_cons_self row rest)) hget (Nat.zero_le _)
      with ⟨w1, hfold, hw1⟩
    simp only [List.nil_append] at hfold
    have hrowlen : row.length = M := hM row (List.mem_cons_self row rest)
    have hw1M : w1.length = max st.widths.length M := by
      rw [hw1]
      simp [hrowlen]
    have hmat1 : st.matrix.set done.length (row.map (fun c => c.content.toList))
        = (done ++ [row.map (fun c => c.content.toList)])
            ++ List.replicate rest.length [] := by
      rw [hmat]
      rw [show done.length = done.length + 0 from rfl, set_append_len]
      simp only [List.length_cons, List.replicate_succ, List.set_cons_zero,
        List.append_assoc, List.singleton_append]
    show ∃ w', buildRowsGo
        (row.foldl (fun s c => placeCell s done.length c) st) (done.length + 1) rest = _ ∧ _
    rw [hfold]
    have hst1 : (⟨st.matrix.set done.length
        (List.map (fun c => c.content.toList) row), w1⟩ : TState).matrix
        = (done ++ [row.map (fun c => c.content.toList)])
            ++ List.replicate rest.length [] := by
      simpa using hmat1
    rcases ih (done ++ [row.map (fun c => c.content.toList)])
      ⟨st.matrix.set done.length (List.map (fun c => c.content.toList) row), w1⟩
      (fun r hr => hall r (List.mem_cons_of_mem row hr))
      (fun r hr => hM r (List.mem_cons_of_mem row hr))
      hst1
      (by rw [hw1M]; omega)
      with ⟨w2, heq, hlen2⟩
    have hlenstep : (done ++ [row.map (fun c => c.content.toList)]).length
        = done.length + 1 := by simp
    rw [hlenstep] at heq
    refine ⟨w2, ?_, ?_⟩
    · rw [heq]
      simp only [List.map_cons, List.append_assoc, List.singleton_append]
    · rw [hlen2]
      by_cases hrest : rest = []
      · rw [if_pos hrest, hw1M, if_neg (by simp)]
        omega
      · rw [if_neg hrest, if_neg (by simp)]

lemma buildTable_uniform {rows : List (List CellData)} {M : Nat}
    (hall : ∀ row ∈ rows, ∀ c ∈ row, c.rowspan = 1 ∧ c.colspan = 1)
    (hM : ∀ row ∈ rows, row.length = M) (hne : rows ≠ []) :
    ∃ w', buildTable rows
        = ⟨rows.map (fun row => row.map (fun c => c.content.toList)), w'⟩
      ∧ w'.length = M := by
  rcases buildRowsGo_uniform M rows []
    ⟨List.replicate rows.length [], []⟩ hall hM (by simp) (by simp)
    with ⟨w', heq, hlen⟩
  refine ⟨w', ?_, ?_⟩
  · unfold buildTable
    simpa using heq
  · rw [hlen, if_neg hne]

lemma mem_replicate_space {x : Char} {n : Nat}
    (h : x ∈ List.replicate n ' ') : x = ' ' :=
  List.eq_of_mem_replicate h

lemma mem_formatCell {x : Char} {pp ct : Bool} {w : List Nat} {c : List Char}
    {i : Nat} (h : x ∈ formatCell pp ct w c i) : x = ' ' ∨ x ∈ c := by
  unfold formatCell at h
  split_ifs at h <;>
    first
    | (rcases List.mem_cons.1 h with he | hm
       · exact Or.inl he
       · rcases List.mem_append.1 hm with h1 | h2
         · exact Or.inr h1
         · first
           | exact Or.inl (List.mem_singleton.1 h2)
           | exact Or.inl (mem_replicate_space h2))
    | (rcases List.mem_append.1 h with hm | h2
       · rcases List.mem_append.1 hm with h1 | h1
         · exact Or.inl (mem_replicate_space h1)
         · exact Or.inr h1
       · exact Or.inl (mem_replicate_space h2))

lemma mem_joinWith_pipe {x : Char} {cells : List (List Char)}
    (h : x ∈ joinWith ['|'] cells) : x = '|' ∨ ∃ cell ∈ cells, x ∈ cell := by
  induction cells with
  | nil => cases h
  | cons p ps ih =>
    cases ps with
    | nil =>
      exact Or.inr ⟨p, List.mem_cons_self p [], h⟩
    | cons q qs =>
      rw [show joinWith ['|'] (p :: q :: qs) = p ++ ['|'] ++ joinWith ['|'] (q :: qs)
        from rfl] at h
      rcases List.mem_append.1 h with h1 | h2
      · rcases List.mem_append.1 h1 with hp | hsep
        · exact Or.inr ⟨p, List.mem_cons_self p _, hp⟩
        · exact Or.inl (List.mem_singleton.1 hsep)
      · rcases ih h2 with he | ⟨cell, hc1, hc2⟩
        · exact Or.inl he
        · exact Or.inr ⟨cell, List.mem_cons_of_mem p hc1, hc2⟩

lemma count_joinWith_pipe {cells : List (List Char)}
    (h : ∀ cell ∈ cells, '|' ∉ cell) :
    (joinWith ['|'] cells).count '|' = cells.length - 1 := by
  induction cells with
  | nil => rfl
  | cons p ps ih =>
    cases ps with
    | nil =>
      show p.count '|' = 0
      exact List.count_eq_zero.2 (h p (List.mem_cons_self p []))
    | cons q qs =>
      rw [show joinWith ['|'] (p :: q :: qs) = p ++ ['|'] ++ joinWith ['|'] (q :: qs)
        from rfl]
      have hone : (['|'] : List Char).count '|' = 1 := by decide
      rw [List.count_append, List.count_append,
        List.count_eq_zero.2 (h p (List.mem_cons_self p _)),
        ih (fun cell hc => h cell (List.mem_cons_of_mem p hc)), hone]
      simp only [List.length_cons]
      omega

lemma count_lineCore {cells : List (List Char)}
    (h : ∀ cell ∈ cells, '|' ∉ cell) (hne : cells ≠ []) :
    (lineCore cells).count '|' = cells.length + 1 := by
  have hone : (['|'] : List Char).count '|' = 1 := by decide
  have hform : lineCore cells = ['|'] ++ joinWith ['|'] cells ++ ['|'] := rfl
  rw [hform, List.count_append, List.count_append, count_joinWith_pipe h, hone]
  have : cells.length ≠ 0 := fun he => hne (List.length_eq_zero.1 he)
  omega

lemma newline_notin_lineCore {cells : List (List Char)}
    (h : ∀ cell ∈ cells, '\n' ∉ cell) : '\n' ∉ lineCore cells := by
  intro habs
  unfold lineCore at habs
  rcases List.mem_cons.1 habs with he | hm
  · cases he
  · rcases List.mem_append.1 hm with h1 | h2
    · rcases mem_joinWith_pipe h1 with he | ⟨cell, hc1, hc2⟩
      · cases he
      · exact h cell hc1 hc2
    · cases List.mem_singleton.1 h2

lemma lineCore_ne_nil (cells : List (List Char)) : lineCore cells ≠ [] := by
  simp [lineCore]

lemma splitOnChar_lines :
    ∀ (ls : List (List Char)), (∀ L ∈ ls, '\n' ∉ L) →
      splitOnChar '\n' ((ls.map (fun L => L ++ ['\n'])).flatten) = ls ++ [[]] := by
  intro ls
  induction ls with
  | nil => intro _; rfl
  | cons L ls' ih =>
    intro h
    rw [List.map_cons, List.flatten_cons, List.append_assoc,
      List.singleton_append,
      splitOnChar_append_sep _ (h L (List.mem_cons_self L ls')),
      ih (fun x hx => h x (List.mem_cons_of_mem L hx))]
    rfl

lemma mem_mapIdxL {α β : Type} {f : Nat → α → β} {y : β} :
    ∀ {n : Nat} {l : List α}, y ∈ mapIdxL f n l → ∃ i x, x ∈ l ∧ y = f i x := by
  intro n l
  induction l generalizing n with
  | nil => intro h; cases h
  | cons x xs ih =>
    intro h
    rcases List.mem_cons.1 h with he | hm
    · exact ⟨n, x, List.mem_cons_self x xs, he⟩
    · rcases ih hm with ⟨i, x', hx', hy⟩
      exact ⟨i, x', List.mem_cons_of_mem x hx', hy⟩

lemma length_mapIdxL {α β : Type} (f : Nat → α → β) :
    ∀ (n : Nat) (l : List α), (mapIdxL f n l).length = l.length := by
  intro n l
  induction l generalizing n with
  | nil => rfl
  | cons x xs ih =>
    show (mapIdxL f (n + 1) xs).length + 1 = xs.length + 1
    rw [ih]

lemma headD_mem {α : Type} {l : List α} (d : α) (h : l ≠ []) : l.headD d ∈ l := by
  cases l with
  | nil => exact absurd rfl h
  | cons a as => exact List.mem_cons_self a as

lemma fmtRow_cells_clean {pp ct : Bool} {w : List Nat} {row : List (List Char)}
    (h : ∀ c ∈ row, '\n' ∉ c ∧ '|' ∉ c) :
    ∀ cell ∈ fmtRow pp ct w row, '\n' ∉ cell ∧ '|' ∉ cell := by
  intro cell hcell
  rcases mem_mapIdxL hcell with ⟨i, c, hc, hy⟩
  subst hy
  constructor
  · intro habs
    rcases mem_formatCell habs with he | hm
    · cases he
    · exact (h c hc).1 hm
  · intro habs
    rcases mem_formatCell habs with he | hm
    · cases he
    · exact (h c hc).2 hm

/-! Theorems for claim C3. -/

/-- C3 counterexample.  Cell escaping is disabled in the restricted cell
converter, so a rendered cell may itself contain `|` or a newline, and then
the claimed line shape fails: in a 1-column table (`M = 1`, one data row,
no spans) whose header cell renders to `"a|b"`, the nonempty output lines
carry `[3, 2, 2]` pipe characters — the header line has 3 pipes, not
`M + 1 = 2`; and when the header cell renders to `"a\nb"` the output has
4 nonempty lines, not `N + 2 = 3`. -/
theorem C3_counterexample_cell_content :
    (((splitOnChar '\n' (tableRule true true
          [[⟨"a|b", 1, 1⟩], [⟨"1", 1, 1⟩]]).toList).filter (· ≠ [])).map
        (fun line => line.count '|') = [3, 2, 2]
      ∧ ¬ (3 = 1 + 1))
    ∧ (((splitOnChar '\n' (tableRule true true
          [[⟨"a\nb", 1, 1⟩], [⟨"1", 1, 1⟩]]).toList).filter (· ≠ [])).length = 4
      ∧ ¬ (4 = 1 + 2)) := by
  refine ⟨⟨by decide, by omega⟩, by decide, by omega⟩

/-- C3.  For a table of `N + 1` rows (header plus `N` data rows) and `M ≥ 1`
columns, with no rowspan/colspan and cell content free of `|` and newlines,
the emitted markdown consists of exactly `N + 2` nonempty lines (header,
separator, data rows), each containing exactly `M + 1` pipe characters; and
the concrete 2×2 header-A/B table under default options emits a table whose
header line is `| A | B |`. -/
theorem C3_table_line_shape :
    (∀ (pp ct : Bool) (rows : List (List CellData)) (M : Nat),
      rows ≠ [] → 1 ≤ M →
      (∀ row ∈ rows, row.length = M) →
      (∀ row ∈ rows, ∀ c ∈ row, c.rowspan = 1 ∧ c.colspan = 1
        ∧ '\n' ∉ c.content.toList ∧ '|' ∉ c.content.toList) →
      (((splitOnChar '\n' (tableRule pp ct rows).toList).filter (· ≠ [])).length
          = rows.length + 1
        ∧ ∀ line ∈ (splitOnChar '\n' (tableRule pp ct rows).toList).filter (· ≠ []),
            line.count '|' = M + 1))
    ∧ tableRule true true
        [[⟨"A", 1, 1⟩, ⟨"B", 1, 1⟩], [⟨"1", 1, 1⟩, ⟨"2", 1, 1⟩]]
        = "\n\n| A | B |\n|-----|-----|\n| 1 | 2 |\n" := by
  constructor
  · intro pp ct rows M hne hM1 hMlen hcells
    rcases buildTable_uniform
      (fun row hr c hc => ⟨(hcells row hr c hc).1, (hcells row hr c hc).2.1⟩)
      hMlen hne with ⟨w', hbt, hwlen⟩
    set mat : List (List (List Char)) :=
      rows.map (fun row => row.map (fun c => c.content.toList)) with hmat
    have hmatne : mat ≠ [] := by
      rw [hmat]
      simpa using hne
    have hmatlen : mat.length = rows.length := by simp [hmat]
    have hrowclean : ∀ row ∈ mat, ∀ c ∈ row, '\n' ∉ c ∧ '|' ∉ c := by
      intro row hr c hc
      rcases List.mem_map.1 hr with ⟨r0, hr0, hrow⟩
      subst hrow
      rcases List.mem_map.1 hc with ⟨c0, hc0, hcc⟩
      subst hcc
      exact ⟨(hcells r0 hr0 c0 hc0).2.2.1, (hcells r0 hr0 c0 hc0).2.2.2⟩
    have hrowlenM : ∀ row ∈ mat, row.length = M := by
      intro row hr
      rcases List.mem_map.1 hr with ⟨r0, hr0, hrow⟩
      subst hrow
      simpa using hMlen r0 hr0
    -- the list of emitted line bodies
    set seps : List (List Char) :=
      w'.map (fun wd => List.replicate (max 3 wd + 2) '-') with hseps
    set lines : List (List Char) :=
      lineCore (fmtRow pp ct w' (mat.headD []))
        :: lineCore seps
        :: (mat.drop 1).map (fun row => lineCore (fmtRow pp ct w' row)) with hlines
    have hemit : (tableRule pp ct rows).toList
        = '\n' :: '\n' :: ((lines.map (fun L => L ++ ['\n'])).flatten) := by
      show (tableEmit pp ct (buildTable rows)) = _
      rw [hbt]
      unfold tableEmit
      rw [if_neg (by simpa using hmatne)]
      simp only [pipeLine, hlines, List.map_cons, List.flatten_cons,
        List.append_assoc, List.map_map]
      rfl
    have hlineclean : ∀ L ∈ lines, '\n' ∉ L := by
      intro L hL
      rw [hlines] at hL
      rcases List.mem_cons.1 hL with he | hL2
      · subst he
        apply newline_notin_lineCore
        intro cell hc
        exact (fmtRow_cells_clean
          (hrowclean _ (headD_mem [] hmatne)) cell hc).1
      · rcases List.mem_cons.1 hL2 with he | hL3
        · subst he
          apply newline_notin_lineCore
          intro cell hc
          rw [hseps] at hc
          rcases List.mem_map.1 hc with ⟨wd, _, hcc⟩
          subst hcc
          intro habs
          exact absurd (List.eq_of_mem_replicate habs) (by decide)
        · rcases List.mem_map.1 hL3 with ⟨row, hrow, hLL⟩
          subst hLL
          apply newline_notin_lineCore
          intro cell hc
          exact (fmtRow_cells_clean
            (hrowclean row (List.mem_of_mem_drop hrow)) cell hc).1
    have hsplit : splitOnChar '\n' (tableRule pp ct rows).toList
        = [] :: [] :: (lines ++ [[]]) := by
      rw [hemit, splitOnChar_cons_sep, splitOnChar_cons_sep,
        splitOnChar_lines lines hlineclean]
    have hkeep : ∀ L ∈ lines, L ≠ [] := by
      intro L hL
      rcases List.mem_cons.1 hL with he | hL2
      · subst he; exact lineCore_ne_nil _
      · rcases List.mem_cons.1 hL2 with he | hL3
        · subst he; exact lineCore_ne_nil _
        · rcases List.mem_map.1 hL3 with ⟨row, _, hLL⟩
          subst hLL
          exact lineCore_ne_nil _
    have hfilter : (splitOnChar '\n' (tableRule pp ct rows).toList).filter (· ≠ [])
        = lines := by
      rw [hsplit]
      have hstep : (([] : List Char) :: [] :: (lines ++ [[]])).filter (· ≠ [])
          = lines.filter (· ≠ []) := by
        simp [List.filter_append]
      rw [hstep]
      apply List.filter_eq_self.2
      intro L hL
      simpa using hkeep L hL
    constructor
    · rw [hfilter, hlines]
      simp only [List.length_cons, List.length_map, List.length_drop]
      rw [hmatlen]
      have : 1 ≤ rows.length := by
        cases hr : rows with
        | nil => exact absurd hr hne
        | cons a as => simp [hr]
      omega
    · intro line hline
      rw [hfilter] at hline
      rw [hlines] at hline
      rcases List.mem_cons.1 hline with he | hl2
      · subst he
        have hhead : (mat.headD []) ∈ mat := headD_mem [] hmatne
        have hlen : (fmtRow pp ct w' (mat.headD [])).length = M := by
          unfold fmtRow
          rw [length_mapIdxL]
          exact hrowlenM _ hhead
        rw [count_lineCore
          (fun cell hc => (fmtRow_cells_clean (hrowclean _ hhead) cell hc).2)
          (by
            intro habs
            rw [habs] at hlen
            simp at hlen
            omega), hlen]
      · rcases List.mem_cons.1 hl2 with he | hl3
        · subst he
          have hsepclean : ∀ cell ∈ seps, '|' ∉ cell := by
            intro cell hc
            rw [hseps] at hc
            rcases List.mem_map.1 hc with ⟨wd, _, hcc⟩
            subst hcc
            intro habs
            exact absurd (List.eq_of_mem_replicate habs) (by decide)
          have hsl : seps.length = M := by
            rw [hseps]
            simpa using hwlen
          rw [count_lineCore hsepclean
            (by
              intro habs
              rw [habs] at hsl
              simp at hsl
              omega), hsl]
        · rcases List.mem_map.1 hl3 with ⟨row, hrow, hLL⟩
          subst hLL
          have hrmem : row ∈ mat := List.mem_of_mem_drop hrow
          have hlen : (fmtRow pp ct w' row).length = M := by
            unfold fmtRow
            rw [length_mapIdxL]
            exact hrowlenM row hrmem
          rw [count_lineCore
            (fun cell hc => (fmtRow_cells_clean (hrowclean row hrmem) cell hc).2)
            (by
              intro habs
              rw [habs] at hlen
              simp at hlen
              omega), hlen]
  · decide

/-- Witness for C3: the general conjunct applied at the concrete 2×2
scenario table. -/
theorem C3_table_line_shape_witness :
    ((splitOnChar '\n' (tableRule true true
        [[⟨"A", 1, 1⟩, ⟨"B", 1, 1⟩], [⟨"1", 1, 1⟩, ⟨"2", 1, 1⟩]]).toList).filter
      (· ≠ [])).length = 3 :=
  (C3_table_line_shape.1 true true
    [[⟨"A", 1, 1⟩, ⟨"B", 1, 1⟩], [⟨"1", 1, 1⟩, ⟨"2", 1, 1⟩]] 2
    (by decide) (by decide) (by decide) (by decide)).1

end MarkSnip
